import Mathlib

set_option maxRecDepth 100000
set_option maxHeartbeats 1000000

/-!
Verification of the Meta-Tic-Tac-Toe repository (FascinatedTV/Meta-Tic-Tac-Toe).

The repository contains three largely independent Rust variants of a
recursively nested ("ultimate") tic-tac-toe game together with a Monte
Carlo tree search engine:

* `src/version1.rs` — the maintained engine: a flat array of nine 3x3
  bitboards (META_BOARD_DEPTH = 1), a MetaBoard with current player and
  last move, the cascading legal-move rule, and the MCTS engine
  (GameTreeKnot / MonteCarlo).  Embedded below in namespace `V1`.
* `src/main.rs` — an older depth-2 variant (META_BOARD_DEPTH = 2) with a
  flat array of 81 bitboards and the same legal-move rule.  Embedded in
  namespace `MainB`.
* `src/game.rs` — a recursive board representation (Board as a tagged
  union of BitBoard and a composed MetaBoard of nine children) with
  result-returning set and a GameState wrapper.  Embedded in namespace `GR`.

Machine integers (Rust u16 masks) are modelled as `Nat`; all mask writes
stay below 2 ^ 16 on the inputs the program produces, and well-formedness
predicates record the bounds where proofs need them.  Rust `f32` scores of
the search tree only ever hold sums of 0, 1/2 and 1 and are modelled as `ℚ`.
Fallible Rust functions returning `Result` are modelled with `Except`,
paired with the (possibly mutated) state.  Randomness (rand::thread_rng)
is modelled by passing an explicit list of draws.  Rust loops whose bound
is data dependent take an explicit fuel argument; at every call site the
fuel dominates the real iteration count.
-/

namespace V1

/-- PlayerMarker of version1.rs: X or O. -/
inductive PlayerMarker where
  | X
  | O
deriving DecidableEq, Repr

/-- PlayerMarker::other. -/
def PlayerMarker.other : PlayerMarker → PlayerMarker
  | .X => .O
  | .O => .X

/-- WINNING_POSITIONS of version1.rs: the eight winning bit patterns. -/
def WINNING_POSITIONS : List Nat :=
  [0b111000000, 0b000111000, 0b000000111,
   0b100100100, 0b010010010, 0b001001001,
   0b100010001, 0b001010100]

/-- BitBoard of version1.rs: two u16 masks, one per player. -/
structure BitBoard where
  x : Nat
  o : Nat
deriving DecidableEq, Repr

/-- BitBoard::new. -/
def BitBoard.new : BitBoard := { x := 0, o := 0 }

/-- BitBoard::set — ors the bit `1 << position` into the mask of `player`. -/
def BitBoard.set (b : BitBoard) (player : PlayerMarker) (position : Nat) : BitBoard :=
  let mask := 1 <<< position
  match player with
  | .X => { b with x := b.x ||| mask }
  | .O => { b with o := b.o ||| mask }

/-- BitBoard::unset — clears the bit of `player` (Rust `!mask` on u16 is
`0xFFFF ^ mask`). -/
def BitBoard.unset (b : BitBoard) (player : PlayerMarker) (position : Nat) : BitBoard :=
  let mask := 1 <<< position
  match player with
  | .X => { b with x := b.x &&& (65535 ^^^ mask) }
  | .O => { b with o := b.o &&& (65535 ^^^ mask) }

/-- BitBoard::is_full — all nine cells occupied. -/
def BitBoard.is_full (b : BitBoard) : Bool :=
  (b.x ||| b.o) == 0b111111111

/-- BitBoard::get_winner — first winning pattern fully covered by one mask. -/
def BitBoard.get_winner (b : BitBoard) : Option PlayerMarker :=
  go WINNING_POSITIONS
where
  go : List Nat → Option PlayerMarker
    | [] => none
    | w :: rest =>
      if b.x &&& w == w then some .X
      else if b.o &&& w == w then some .O
      else go rest

/-- BitBoard::can_set — not full and not yet decided. -/
def BitBoard.can_set (b : BitBoard) : Bool :=
  !b.is_full && b.get_winner == none

/-- BitBoard::get_empty_positions — indices of free cells, empty when the
board can no longer be played. -/
def BitBoard.get_empty_positions (b : BitBoard) : List Nat :=
  if !b.can_set then []
  else (List.range 9).filter (fun i => (b.x ||| b.o) &&& (1 <<< i) == 0)

/-- META_BOARD_DEPTH of version1.rs. -/
def META_BOARD_DEPTH : Nat := 1

/-- MetaMove of version1.rs: a per-level index path [usize; META_BOARD_DEPTH]
(modelled as a list), the flattened board index, and the cell index. -/
structure MetaMove where
  absolute_index : List Nat
  meta_index : Nat
  board_index : Nat
deriving DecidableEq, Repr

/-- MetaMove::absolute_index_to_meta — fold acc * 9 + index. -/
def MetaMove.absolute_index_to_meta (absolute_index : List Nat) : Nat :=
  absolute_index.foldl (fun acc index => acc * 3 * 3 + index) 0

/-- MetaMove::meta_to_absolute_index — digits of the meta index, most
significant first (version1.rs iterates `(0..META_BOARD_DEPTH).rev()`). -/
def MetaMove.meta_to_absolute_index (meta_index : Nat) : List Nat :=
  go META_BOARD_DEPTH meta_index |>.reverse
where
  go : Nat → Nat → List Nat
    | 0, _ => []
    | d + 1, m => (m % 9) :: go d (m / 9)

/-- MetaMove::shift_left — drop the first path component and append the cell
index just played. -/
def MetaMove.shift_left (m : MetaMove) : MetaMove :=
  if m.absolute_index.length = 0 then
    { absolute_index := m.absolute_index, meta_index := 0, board_index := 0 }
  else
    let absolute_index := m.absolute_index.drop 1 ++ [m.board_index]
    { absolute_index := absolute_index,
      meta_index := MetaMove.absolute_index_to_meta absolute_index,
      board_index := 0 }

/-- From<(usize, usize)> for MetaMove. -/
def MetaMove.fromPair (meta_index board_index : Nat) : MetaMove :=
  { absolute_index := MetaMove.meta_to_absolute_index meta_index,
    meta_index := meta_index,
    board_index := board_index }

/-- PartialEq for MetaMove in version1.rs is hand written: it compares only
meta_index and board_index. -/
def MetaMove.rustEq (a b : MetaMove) : Bool :=
  a.meta_index == b.meta_index && a.board_index == b.board_index

/-- MetaBoard of version1.rs: nine bitboards (META_BOARD_SIZE = 9), the last
move and the player to move. -/
structure MetaBoard where
  last_move : Option MetaMove
  current_player : PlayerMarker
  boards : List BitBoard
deriving DecidableEq, Repr

/-- MetaBoard::new. -/
def MetaBoard.new : MetaBoard :=
  { boards := List.replicate 9 BitBoard.new,
    last_move := none,
    current_player := .X }

/-- Array read `self.boards[i]`; indices are in range whenever the program
reads them (Rust would panic otherwise). -/
def MetaBoard.boardAt (mb : MetaBoard) (i : Nat) : BitBoard :=
  mb.boards.getD i BitBoard.new

/-- MetaBoard::set — writes the current player into the addressed board,
records the move and flips the player. -/
def MetaBoard.set (mb : MetaBoard) (m : MetaMove) : MetaBoard :=
  { boards := mb.boards.set m.meta_index
      ((mb.boardAt m.meta_index).set mb.current_player m.board_index),
    last_move := some m,
    current_player := mb.current_player.other }

/-- MetaBoard::unset — flips the player back, clears the bit of the recorded
last move and restores the supplied previous move.  The source unwraps the
last move; it is never called on a board without one, so the none case
returns the board unchanged. -/
def MetaBoard.unset (mb : MetaBoard) (previous_move : Option MetaMove) : MetaBoard :=
  match mb.last_move with
  | none => mb
  | some last_move =>
    let player := mb.current_player.other
    { boards := mb.boards.set last_move.meta_index
        ((mb.boardAt last_move.meta_index).unset player last_move.board_index),
      last_move := previous_move,
      current_player := player }

/-- MetaBoard::get_empty_positions — every free cell of every still playable
board, in board-then-cell order. -/
def MetaBoard.get_empty_positions (mb : MetaBoard) : List MetaMove :=
  mb.boards.enum.flatMap (fun p =>
    p.2.get_empty_positions.map (fun board_index => MetaMove.fromPair p.1 board_index))

/-- MetaBoard::get_winner — recursion on the path length: a full-length path
addresses one bitboard, a shorter one builds the summary board of the nine
child winners and takes its winner.  The source recurses on
`META_BOARD_DEPTH - index.len()` levels; the fuel argument is exactly that
difference at every call site. -/
def MetaBoard.get_winner_aux (mb : MetaBoard) : Nat → List Nat → Option PlayerMarker
  | 0, index => (mb.boardAt (MetaMove.absolute_index_to_meta index)).get_winner
  | d + 1, index =>
    let board := (List.range 9).foldl (fun (acc : BitBoard) i =>
      match mb.get_winner_aux d (index ++ [i]) with
      | none => acc
      | some .X => { acc with x := acc.x ||| (1 <<< i) }
      | some .O => { acc with o := acc.o ||| (1 <<< i) }) BitBoard.new
    board.get_winner

/-- MetaBoard::get_winner, entered at an arbitrary path. -/
def MetaBoard.get_winner (mb : MetaBoard) (index : List Nat) : Option PlayerMarker :=
  mb.get_winner_aux (META_BOARD_DEPTH - index.length) index

/-- Ascending loop of get_possible_moves: the smallest `i` with a decided
prefix of the last move, capped at META_BOARD_DEPTH.  The source loops and
breaks; the fuel starts at META_BOARD_DEPTH + 1 which dominates the
iteration count because the cap fires at i = META_BOARD_DEPTH. -/
def MetaBoard.ascend (mb : MetaBoard) (absolute_index : List Nat) : Nat :=
  go (META_BOARD_DEPTH + 1) 0
where
  go : Nat → Nat → Nat
    | 0, i => i
    | fuel + 1, i =>
      if (mb.get_winner (absolute_index.take i)).isSome || i == META_BOARD_DEPTH then i
      else go fuel (i + 1)

/-- One pass of the descending loop of get_possible_moves: all free cells of
still playable boards in the nine-board window starting at the flattened
prefix index. -/
def MetaBoard.scanLevel (mb : MetaBoard) (absolute_index : List Nat) (i : Nat) : List MetaMove :=
  let start := MetaMove.absolute_index_to_meta (absolute_index.take i)
  (List.range' start 9).flatMap (fun meta_index =>
    if (mb.boardAt meta_index).can_set then
      (mb.boardAt meta_index).get_empty_positions.map
        (fun board_index => MetaMove.fromPair meta_index board_index)
    else [])

/-- Descending loop of get_possible_moves: `for i in (0..i).rev()` returning
the first non-empty window, with MetaBoard::get_empty_positions as the final
fallback. -/
def MetaBoard.descend (mb : MetaBoard) (absolute_index : List Nat) : List Nat → List MetaMove
  | [] => mb.get_empty_positions
  | i :: rest =>
    let vet := mb.scanLevel absolute_index i
    if vet.isEmpty then mb.descend absolute_index rest else vet

/-- MetaBoard::get_possible_moves of version1.rs. -/
def MetaBoard.get_possible_moves (mb : MetaBoard) : List MetaMove :=
  match mb.last_move with
  | some last_move =>
    if (mb.get_winner []).isSome then []
    else
      let next_move := last_move.shift_left
      let next_meta_index := next_move.meta_index
      if (mb.boardAt next_meta_index).can_set then
        (mb.boardAt next_meta_index).get_empty_positions.map
          (fun board_index => MetaMove.fromPair next_meta_index board_index)
      else
        let i := mb.ascend last_move.absolute_index
        if i = 0 then []
        else mb.descend last_move.absolute_index (List.range i).reverse
  | none => mb.get_empty_positions

/-- GameTreeKnot of version1.rs: children, the move that led here, and the
f32 statistics (modelled as exact rationals; every stored value is a sum of
scores from {0, 1/2, 1} and a count, both exactly representable). -/
structure GameTreeKnot where
  children : List GameTreeKnot
  move_ : Option MetaMove
  score : ℚ
  visit_count : ℚ

/-- MonteCarlo::new produces this root knot. -/
def GameTreeKnot.newRoot : GameTreeKnot :=
  { children := [], move_ := none, score := 0, visit_count := 0 }

/-- Fresh child knot pushed by expand_and_playout. -/
def GameTreeKnot.fresh (m : MetaMove) : GameTreeKnot :=
  { children := [], move_ := some m, score := 0, visit_count := 0 }

/-- One random draw: gen_range(0..len) is modelled as the next supplied
draw reduced mod len (a uniform draw gives a uniform index). -/
def drawIndex (rng : List Nat) (len : Nat) : Nat :=
  rng.headD 0 % len

/-- GameTreeKnot::playout of version1.rs — apply the move of the knot, then
play uniformly random legal moves until none remain; score 1 if the winner
is the player who made the move of the knot, 1/2 on a draw, 0 otherwise;
record the score into the statistics of the knot.  The fuel bounds the loop
(the source loop terminates because every move fills a cell); callers pass
fuel at least the number of free cells.  The source unwraps the move of the
knot; it is always present at the call sites, and the none case returns the
state unchanged with score 0. -/
def GameTreeKnot.playout (k : GameTreeKnot) (mb : MetaBoard) (rng : List Nat)
    (fuel : Nat) : GameTreeKnot × ℚ :=
  match k.move_ with
  | none => (k, 0)
  | some m =>
    let current_player := mb.current_player
    let mb1 := mb.set m
    let final := loop fuel mb1 rng
    let score : ℚ :=
      match final.get_winner [] with
      | some value => if value = current_player then 1 else 0
      | none => 1/2
    ({ k with visit_count := k.visit_count + 1, score := k.score + score }, score)
where
  loop : Nat → MetaBoard → List Nat → MetaBoard
    | 0, mb, _ => mb
    | fuel + 1, mb, rng =>
      let possible_moves := mb.get_possible_moves
      if possible_moves.isEmpty then mb
      else
        let index := drawIndex rng possible_moves.length
        loop fuel (mb.set (possible_moves.getD index (MetaMove.fromPair 0 0))) rng.tail

/-- GameTreeKnot::expand_and_playout of version1.rs — on a terminal position
score the position for the current knot; otherwise push one fresh child per
legal move, pick one child at random and return the raw playout result of
that child (the source does not flip the perspective here). -/
def GameTreeKnot.expand_and_playout (k : GameTreeKnot) (mb : MetaBoard)
    (rng : List Nat) (fuel : Nat) : GameTreeKnot × ℚ :=
  let possible_moves := mb.get_possible_moves
  if possible_moves.isEmpty then
    let score : ℚ :=
      match mb.get_winner [] with
      | some winning_player => if winning_player = mb.current_player then 0 else 1
      | none => 1/2
    (k, score)
  else
    let children := k.children ++ possible_moves.map GameTreeKnot.fresh
    let rand_index := drawIndex rng possible_moves.length
    let chosen := children.getD rand_index GameTreeKnot.newRoot
    let (chosen1, score) := chosen.playout mb rng.tail fuel
    ({ k with children := children.set rand_index chosen1 }, score)

/-- Tree-reuse step at the top of MonteCarlo::get_move (version1.rs lines
697..713): when the board records a last move and the root knot is tagged
with a move, the first child whose locator equals the last move (version1
MetaMove equality: meta_index and board_index) replaces the root; when no
child matches the source only prints a message and keeps the root. -/
def advance_head (tree_head : GameTreeKnot) (last_move : Option MetaMove) : GameTreeKnot :=
  match last_move with
  | some lm =>
    if tree_head.move_.isSome then
      match tree_head.children.find? (fun child =>
        match child.move_ with
        | some m => m.rustEq lm
        | none => false) with
      | some child => child
      | none => tree_head
    else tree_head
  | none => tree_head

/-- Rust Iterator::max_by — a left fold that keeps the accumulator only when
it compares strictly greater, so equal elements are replaced and the last
maximum wins. -/
def maxByRust (cmp : α → α → Ordering) : List α → Option α
  | [] => none
  | a :: rest => some (rest.foldl (fun acc x => if cmp acc x = .gt then acc else x) a)

/-- Exploitation ratio score / visit_count used by the best-move selection
of MonteCarlo::get_move. -/
def GameTreeKnot.ratio (k : GameTreeKnot) : ℚ :=
  k.score / k.visit_count

/-- Comparison used by the best-move selection: Rust partial_cmp on two f32
ratios yields Less, Equal or Greater by the usual order (it is only None on
NaN, which arises exactly for an unvisited child, 0.0 / 0.0). -/
def ratioCompare (a b : ℚ) : Ordering :=
  if a < b then .lt else if a = b then .eq else .gt

/-- Best-move selection of MonteCarlo::get_move (version1.rs lines 740..751):
enumerate the children of the root and take max_by on score / visit_count
(partial_cmp on the ratios; with every child visited the comparison is
total). -/
def bestChildIndex (tree_head : GameTreeKnot) : Option Nat :=
  (maxByRust (fun a b => ratioCompare (GameTreeKnot.ratio a.2) (GameTreeKnot.ratio b.2))
    tree_head.children.enum).map Prod.fst

end V1

namespace MainB

/-- Value of main.rs: X or O. -/
inductive Value where
  | X
  | O
deriving DecidableEq, Repr

/-- WINNING_POSITIONS of main.rs (identical patterns). -/
def WINNING_POSITIONS : List Nat :=
  [0b111000000, 0b000111000, 0b000000111,
   0b100100100, 0b010010010, 0b001001001,
   0b100010001, 0b001010100]

/-- BitBoard of main.rs. -/
structure BitBoard where
  x : Nat
  o : Nat
deriving DecidableEq, Repr

/-- BitBoard::new. -/
def BitBoard.new : BitBoard := { x := 0, o := 0 }

/-- BitBoard::set of main.rs. -/
def BitBoard.set (b : BitBoard) (player : Value) (position : Nat) : BitBoard :=
  let mask := 1 <<< position
  match player with
  | .X => { b with x := b.x ||| mask }
  | .O => { b with o := b.o ||| mask }

/-- BitBoard::is_full of main.rs. -/
def BitBoard.is_full (b : BitBoard) : Bool :=
  (b.x ||| b.o) == 0b111111111

/-- BitBoard::get_winner of main.rs. -/
def BitBoard.get_winner (b : BitBoard) : Option Value :=
  go WINNING_POSITIONS
where
  go : List Nat → Option Value
    | [] => none
    | w :: rest =>
      if b.x &&& w == w then some .X
      else if b.o &&& w == w then some .O
      else go rest

/-- BitBoard::can_set of main.rs. -/
def BitBoard.can_set (b : BitBoard) : Bool :=
  !b.is_full && b.get_winner == none

/-- BitBoard::get_empty_positions of main.rs. -/
def BitBoard.get_empty_positions (b : BitBoard) : List Nat :=
  if !b.can_set then []
  else (List.range 9).filter (fun i => (b.x ||| b.o) &&& (1 <<< i) == 0)

/-- META_BOARD_DEPTH of main.rs: 2, a 27 x 27 board of 81 leaf boards. -/
def META_BOARD_DEPTH : Nat := 2

/-- META_BOARD_SIZE of main.rs: 81. -/
def META_BOARD_SIZE : Nat := 81

/-- MetaMove of main.rs (PartialEq is derived there, so equality compares
every field, unlike version1.rs). -/
structure MetaMove where
  absolute_index : List Nat
  meta_index : Nat
  board_index : Nat
deriving DecidableEq, Repr

/-- MetaMove::absolute_index_to_meta of main.rs — fold acc * 9 + index. -/
def MetaMove.absolute_index_to_meta (absolute_index : List Nat) : Nat :=
  absolute_index.foldl (fun acc index => acc * 3 * 3 + index) 0

/-- MetaMove::meta_to_absolute_index of main.rs — the loop runs FORWARD
(`for i in 0..META_BOARD_DEPTH`), so it stores the least significant digit
first, which is inconsistent with absolute_index_to_meta (version1.rs
reverses the loop to fix this). -/
def MetaMove.meta_to_absolute_index (meta_index : Nat) : List Nat :=
  go META_BOARD_DEPTH meta_index
where
  go : Nat → Nat → List Nat
    | 0, _ => []
    | d + 1, m => (m % 9) :: go d (m / 9)

/-- MetaMove::shift_left of main.rs — identical to version1.rs. -/
def MetaMove.shift_left (m : MetaMove) : MetaMove :=
  if m.absolute_index.length = 0 then
    { absolute_index := m.absolute_index, meta_index := 0, board_index := 0 }
  else
    let absolute_index := m.absolute_index.drop 1 ++ [m.board_index]
    { absolute_index := absolute_index,
      meta_index := MetaMove.absolute_index_to_meta absolute_index,
      board_index := 0 }

/-- From<(usize, usize)> for MetaMove of main.rs. -/
def MetaMove.fromPair (meta_index board_index : Nat) : MetaMove :=
  { absolute_index := MetaMove.meta_to_absolute_index meta_index,
    meta_index := meta_index,
    board_index := board_index }

/-- MetaBoard of main.rs: 81 bitboards and the last move paired with the
player who made it. -/
structure MetaBoard where
  last_move : Option (Value × MetaMove)
  boards : List BitBoard
deriving DecidableEq, Repr

/-- MetaBoard::new of main.rs. -/
def MetaBoard.new : MetaBoard :=
  { boards := List.replicate META_BOARD_SIZE BitBoard.new, last_move := none }

/-- Array read `self.boards[i]` of main.rs. -/
def MetaBoard.boardAt (mb : MetaBoard) (i : Nat) : BitBoard :=
  mb.boards.getD i BitBoard.new

/-- MetaBoard::set of main.rs — writes the given player and records the
move; main.rs has no current-player field. -/
def MetaBoard.set (mb : MetaBoard) (player : Value) (m : MetaMove) : MetaBoard :=
  { boards := mb.boards.set m.meta_index
      ((mb.boardAt m.meta_index).set player m.board_index),
    last_move := some (player, m) }

/-- MetaBoard::get_empty_positions of main.rs. -/
def MetaBoard.get_empty_positions (mb : MetaBoard) : List MetaMove :=
  mb.boards.enum.flatMap (fun p =>
    p.2.get_empty_positions.map (fun board_index => MetaMove.fromPair p.1 board_index))

/-- MetaBoard::get_winner of main.rs — same recursion as version1.rs, two
levels deep; the fuel is META_BOARD_DEPTH - index.len() at every call
site. -/
def MetaBoard.get_winner_aux (mb : MetaBoard) : Nat → List Nat → Option Value
  | 0, index => (mb.boardAt (MetaMove.absolute_index_to_meta index)).get_winner
  | d + 1, index =>
    let board := (List.range 9).foldl (fun (acc : BitBoard) i =>
      match mb.get_winner_aux d (index ++ [i]) with
      | none => acc
      | some .X => { acc with x := acc.x ||| (1 <<< i) }
      | some .O => { acc with o := acc.o ||| (1 <<< i) }) BitBoard.new
    board.get_winner

/-- MetaBoard::get_winner of main.rs. -/
def MetaBoard.get_winner (mb : MetaBoard) (index : List Nat) : Option Value :=
  mb.get_winner_aux (META_BOARD_DEPTH - index.length) index

/-- Ascending loop of get_possible_moves of main.rs. -/
def MetaBoard.ascend (mb : MetaBoard) (absolute_index : List Nat) : Nat :=
  go (META_BOARD_DEPTH + 1) 0
where
  go : Nat → Nat → Nat
    | 0, i => i
    | fuel + 1, i =>
      if (mb.get_winner (absolute_index.take i)).isSome || i == META_BOARD_DEPTH then i
      else go fuel (i + 1)

/-- One pass of the descending loop of get_possible_moves of main.rs: scans
the nine boards from `absolute_index_to_meta(prefix)` on — note that this
start index is NOT scaled by the size of the level, see the analysis of
claim C7 below. -/
def MetaBoard.scanLevel (mb : MetaBoard) (absolute_index : List Nat) (i : Nat) : List MetaMove :=
  let start := MetaMove.absolute_index_to_meta (absolute_index.take i)
  (List.range' start 9).flatMap (fun meta_index =>
    if (mb.boardAt meta_index).can_set then
      (mb.boardAt meta_index).get_empty_positions.map
        (fun board_index => MetaMove.fromPair meta_index board_index)
    else [])

/-- Descending loop of get_possible_moves of main.rs. -/
def MetaBoard.descend (mb : MetaBoard) (absolute_index : List Nat) : List Nat → List MetaMove
  | [] => mb.get_empty_positions
  | i :: rest =>
    let vet := mb.scanLevel absolute_index i
    if vet.isEmpty then mb.descend absolute_index rest else vet

/-- MetaBoard::get_possible_moves of main.rs — unlike version1.rs the root
winner is checked before matching on the last move. -/
def MetaBoard.get_possible_moves (mb : MetaBoard) : List MetaMove :=
  if (mb.get_winner []).isSome then []
  else
    match mb.last_move with
    | some (_, last_move) =>
      let next_move := last_move.shift_left
      let next_meta_index := next_move.meta_index
      if (mb.boardAt next_meta_index).can_set then
        (mb.boardAt next_meta_index).get_empty_positions.map
          (fun board_index => MetaMove.fromPair next_meta_index board_index)
      else
        let i := mb.ascend last_move.absolute_index
        if i = 0 then []
        else mb.descend last_move.absolute_index (List.range i).reverse
    | none => mb.get_empty_positions

end MainB

namespace GR

/-- PlayerMarker of game.rs: X, O or Empty. -/
inductive PlayerMarker where
  | X
  | O
  | Empty
deriving DecidableEq, Repr

/-- PlayerMarker::to_other of game.rs. -/
def PlayerMarker.to_other : PlayerMarker → PlayerMarker
  | .X => .O
  | .O => .X
  | .Empty => .Empty

/-- InvalidMoveError of game.rs. -/
structure InvalidMoveError where
  message : String
deriving DecidableEq, Repr

/-- WINNING_POSITIONS of game.rs (same eight patterns). -/
def WINNING_POSITIONS : List Nat :=
  [0b111000000, 0b000111000, 0b000000111,
   0b100100100, 0b010010010, 0b001001001,
   0b100010001, 0b001010100]

/-- BitBoard of game.rs. -/
structure BitBoard where
  x : Nat
  o : Nat
deriving DecidableEq, Repr

/-- BitBoard::new of game.rs. -/
def BitBoard.new : BitBoard := { x := 0, o := 0 }

/-- BitBoard::get of game.rs — the marker occupying a cell. -/
def BitBoard.get (b : BitBoard) (index : Nat) : PlayerMarker :=
  let mask := 1 <<< index
  if b.x &&& mask ≠ 0 then .X
  else if b.o &&& mask ≠ 0 then .O
  else .Empty

/-- BitBoard::get_winner of game.rs — Empty when no pattern is covered. -/
def BitBoard.get_winner (b : BitBoard) : PlayerMarker :=
  go WINNING_POSITIONS
where
  go : List Nat → PlayerMarker
    | [] => .Empty
    | w :: rest =>
      if b.x &&& w == w then .X
      else if b.o &&& w == w then .O
      else go rest

/-- BitBoard::set of game.rs — fails when either mask holds the bit,
otherwise writes the marker (Empty writes nothing) and returns the winner
after the write. -/
def BitBoard.set (b : BitBoard) (index : Nat) (player : PlayerMarker) :
    BitBoard × Except InvalidMoveError PlayerMarker :=
  let mask := 1 <<< index
  if (b.x ||| b.o) &&& mask > 0 then
    (b, .error { message := "Move was already played" })
  else
    let b2 :=
      match player with
      | .X => { b with x := b.x ||| mask }
      | .O => { b with o := b.o ||| mask }
      | .Empty => b
    (b2, .ok b2.get_winner)

/-- BitBoard::unset of game.rs — only acts on a length-one index slice and
clears the bit from both masks (Rust `!mask` on u16 is `0xFFFF ^ mask`). -/
def BitBoard.unset (b : BitBoard) (index : List Nat) : BitBoard :=
  match index with
  | [i] =>
    let mask := 65535 ^^^ (1 <<< i)
    { x := b.x &&& mask, o := b.o &&& mask }
  | _ => b

/-- BitBoard::can_set of game.rs. -/
def BitBoard.can_set (b : BitBoard) : Bool :=
  b.get_winner == .Empty && (b.x ||| b.o) != 0b111111111

/-- Board of game.rs: a tagged union of a leaf BitBoard and a composed
MetaBoard owning a summary BitBoard plus nine children (the Rust
`Box<[Board; 9]>` is modelled as a function from Fin 9). -/
inductive Board where
  | bitB (b : BitBoard)
  | metaB (board : BitBoard) (sub_boards : Fin 9 → Board)

/-- Board::create_board of game.rs — depth 1 is a leaf, deeper boards
compose nine children one level shallower.  The source is never called with
depth 0 (it would recurse with an underflowing counter); depth 0 is mapped
to a leaf here. -/
def Board.create_board : Nat → Board
  | 0 => .bitB BitBoard.new
  | 1 => .bitB BitBoard.new
  | d + 2 => .metaB BitBoard.new (fun _ => Board.create_board (d + 1))

/-- Board::set of game.rs, including the MetaBoard::set case: an empty index
is rejected, a leaf accepts exactly a length-one index, and a composed board
checks its summary cell, recurses into the child, and mirrors a freshly
decided child into the summary.  The Rust `sub_boards.get_mut(i).unwrap()`
panics on an out-of-range index; that panic is modelled as a distinct error
left by an unchanged board. -/
def Board.set : Board → List Nat → PlayerMarker → Board × Except InvalidMoveError PlayerMarker
  | b, [], _ => (b, .error { message := "Index is empty" })
  | .bitB bb, [i], player =>
    let (bb2, r) := bb.set i player
    (.bitB bb2, r)
  | .bitB bb, _ :: _ :: _, _ => (.bitB bb, .error { message := "Invalid Index" })
  | .metaB board subs, [_], _ =>
    (.metaB board subs, .error { message := "Index is too short" })
  | .metaB board subs, spec_index :: i :: rest, player =>
    if board.get spec_index ≠ .Empty then
      (.metaB board subs, .error { message := "Board is already won" })
    else if h : spec_index < 9 then
      match Board.set (subs ⟨spec_index, h⟩) (i :: rest) player with
      | (sub2, .ok marker) =>
        let subs2 := fun j => if j = ⟨spec_index, h⟩ then sub2 else subs j
        if marker ≠ .Empty then
          match board.set spec_index marker with
          | (board2, .ok _) => (.metaB board2 subs2, .ok board2.get_winner)
          | (board2, .error e) => (.metaB board2 subs2, .error e)
        else
          (.metaB board subs2, .ok board.get_winner)
      | (sub2, .error e) =>
        (.metaB board (fun j => if j = ⟨spec_index, h⟩ then sub2 else subs j), .error e)
    else
      (.metaB board subs, .error { message := "panic: index out of bounds" })

/-- Board::get_winner of game.rs — the winner of the leaf mask or of the
summary board. -/
def Board.get_winner : Board → PlayerMarker
  | .bitB bb => bb.get_winner
  | .metaB board _ => board.get_winner

/-- Board::unset of game.rs, including the MetaBoard::unset case: an empty
index panics in the source (modelled as no change; never reached), a leaf
clears its cell, and a composed board with an index of length at least two
recurses into the child and then clears the summary bit of that child.  An
index of length one on a composed board returns unchanged (`len() <= 1`),
and the out-of-range unwrap panic is modelled as no change. -/
def Board.unset : Board → List Nat → Board
  | b, [] => b
  | .bitB bb, idx => .bitB (bb.unset idx)
  | .metaB board subs, [_] => .metaB board subs
  | .metaB board subs, spec_index :: i :: rest =>
    if h : spec_index < 9 then
      .metaB (board.unset [spec_index])
        (fun j => if j = ⟨spec_index, h⟩ then
          (subs ⟨spec_index, h⟩).unset (i :: rest) else subs j)
    else .metaB board subs

/-- GameState of game.rs: the board, the player to move, and the last
applied move (the absolute_index slice of the MetaMove). -/
structure GameState where
  board : Board
  current_player : PlayerMarker
  last_move : Option (List Nat)

/-- META_DEPTH of game.rs (the checked-in configuration). -/
def META_DEPTH : Nat := 1

/-- GameState::new of game.rs. -/
def GameState.new : GameState :=
  { board := Board.create_board META_DEPTH,
    current_player := .X,
    last_move := none }

/-- GameState::set of game.rs — on success flips the player and records the
move; on failure only the board mutation performed by Board::set remains. -/
def GameState.set (s : GameState) (meta_move : List Nat) :
    GameState × Except InvalidMoveError PlayerMarker :=
  let (board2, r) := s.board.set meta_move s.current_player
  match r with
  | .ok marker =>
    ({ board := board2,
       current_player := s.current_player.to_other,
       last_move := some meta_move }, .ok marker)
  | .error e => ({ s with board := board2 }, .error e)

/-- GameState::unset of game.rs — only acts when a last move is recorded:
clears it from the board, flips the player back and restores the supplied
previous move. -/
def GameState.unset (s : GameState) (previous_move : Option (List Nat)) : GameState :=
  match s.last_move with
  | some last_move =>
    { board := s.board.unset last_move,
      current_player := s.current_player.to_other,
      last_move := previous_move }
  | none => s

end GR

namespace V1

/-- Well-formedness of a version1.rs MetaBoard: nine boards, all masks fit
in nine bits (they are u16 values whose set bits come from cell indices
below nine), and a recorded last move has an in-range cell index.  Every
reachable board satisfies this, see the reach_wf theorem below. -/
def MetaBoard.wfb (mb : MetaBoard) : Prop :=
  mb.boards.length = 9 ∧
  (∀ b ∈ mb.boards, b.x < 512 ∧ b.o < 512) ∧
  (∀ lm, mb.last_move = some lm →
    lm.board_index < 9 ∧ lm.absolute_index.length = 1)

/-- Reachable version1.rs boards: obtained from MetaBoard::new by playing
legal moves (moves drawn from get_possible_moves, as every Player
implementation does). -/
inductive Reachable : MetaBoard → Prop where
  | base : Reachable MetaBoard.new
  | step {mb : MetaBoard} {m : MetaMove} : Reachable mb →
      m ∈ mb.get_possible_moves → Reachable (mb.set m)

/-- Terminal board used against claim C3: boards 0, 1 and 2 carry a full
top row of X, so the root is decided for X while X is recorded as the
player to move. -/
def bWon : BitBoard := { x := 0b111, o := 0 }

/-- Terminal board used against claim C3. -/
def mbTerm : MetaBoard :=
  { boards := [bWon, bWon, bWon, BitBoard.new, BitBoard.new, BitBoard.new,
               BitBoard.new, BitBoard.new, BitBoard.new],
    last_move := some (MetaMove.fromPair 0 0),
    current_player := .X }

/-- Board used against claim C6: boards 0 and 1 are won by X, board 2 has
X on cells 0, 1, 5, 6 and O on cells 3, 4, 7, 8 (single free cell 2, no
winner yet), board 4 carries the last move of O on cell 2, which forwards
play into board 2.  The only legal move is cell 2 of board 2 and it wins
the game for X. -/
def mbC6 : MetaBoard :=
  { boards := [bWon, bWon, { x := 99, o := 408 }, BitBoard.new, { x := 0, o := 4 },
               BitBoard.new, BitBoard.new, BitBoard.new, BitBoard.new],
    last_move := some (MetaMove.fromPair 4 2),
    current_player := .X }

/-- Two root children with identical ratio 1 = score / visit_count, used
against the tie-breaking direction of claim C4. -/
def kA : GameTreeKnot :=
  { children := [], move_ := some (MetaMove.fromPair 0 0), score := 1, visit_count := 1 }

/-- Second tied child for claim C4. -/
def kB : GameTreeKnot :=
  { children := [], move_ := some (MetaMove.fromPair 1 1), score := 1, visit_count := 1 }

/-- Root with the two tied children for claim C4. -/
def headAB : GameTreeKnot :=
  { children := [kA, kB], move_ := none, score := 2, visit_count := 2 }

/-- Child of the claim C5 root; its locator (1, 1) matches no externally
applied move (3, 3). -/
def kid : GameTreeKnot :=
  { children := [], move_ := some (MetaMove.fromPair 1 1), score := 2, visit_count := 3 }

/-- Root with statistics used against claim C5: when no child matches the
observed last move, the source keeps this root (statistics and all) instead
of creating a fresh zero-statistics node. -/
def headC5 : GameTreeKnot :=
  { children := [kid], move_ := some (MetaMove.fromPair 0 0), score := 5, visit_count := 7 }

end V1

namespace MainB

/-- Modelled from the spec (section 4.3 rule 3 and the section 8 bullet of
claim C7), for the depth-2 configuration of main.rs: the sub-board holding
the last move has the root-to-leaf path [meta / 9, meta % 9]; its ancestor
scopes are the containing 9-board block and the root.  The claimed legal
set is the union of empty cells over the not-yet-decided sub-boards of the
nearest undecided ancestor scope, widened to all empty cells of the whole
board when that scope contributes nothing. -/
def claimedScope (mb : MetaBoard) : List MetaMove :=
  match mb.last_move with
  | none => mb.get_empty_positions
  | some (_, lm) =>
    let hi := lm.meta_index / 9
    let scope :=
      if (mb.get_winner [hi]).isNone then List.range' (9 * hi) 9
      else List.range META_BOARD_SIZE
    let s := scope.flatMap (fun mi =>
      if (mb.boardAt mi).can_set then
        (mb.boardAt mi).get_empty_positions.map (MetaMove.fromPair mi)
      else [])
    if s.isEmpty then mb.get_empty_positions else s

/-- Move 1 of the claim C7 game: X in board 76 (block 8, board 4), cell 8. -/
def c7m1 : MetaMove := MetaMove.fromPair 76 8

/-- Move 2 of the claim C7 game: O in board 80, cell 4. -/
def c7m2 : MetaMove := MetaMove.fromPair 80 4

/-- Move 3 of the claim C7 game: X in board 76, cell 0. -/
def c7m3 : MetaMove := MetaMove.fromPair 76 0

/-- Move 4 of the claim C7 game: O in board 72, cell 4. -/
def c7m4 : MetaMove := MetaMove.fromPair 72 4

/-- Move 5 of the claim C7 game: X in board 76, cell 4 — X completes the
diagonal 0, 4, 8 and board 76 is decided; the move forwards into the now
dead board 76. -/
def c7m5 : MetaMove := MetaMove.fromPair 76 4

/-- States of the claim C7 game after each move. -/
def c7s1 : MetaBoard := MetaBoard.new.set .X c7m1

/-- State after move 2 of the claim C7 game. -/
def c7s2 : MetaBoard := c7s1.set .O c7m2

/-- State after move 3 of the claim C7 game. -/
def c7s3 : MetaBoard := c7s2.set .X c7m3

/-- State after move 4 of the claim C7 game. -/
def c7s4 : MetaBoard := c7s3.set .O c7m4

/-- State after move 5 of the claim C7 game: the forwarded target (board 76)
is decided, block 8 is not, so the claimed legal set lives in boards
72..80, while main.rs scans boards 4..12. -/
def c7s5 : MetaBoard := c7s4.set .X c7m5

/-- Well-formedness of a main.rs MetaBoard: 81 boards with nine-bit masks.
Every reachable board satisfies this. -/
def MetaBoard.wfb (mb : MetaBoard) : Prop :=
  mb.boards.length = 81 ∧ (∀ b ∈ mb.boards, b.x < 512 ∧ b.o < 512)

/-- Reachable main.rs boards: obtained from MetaBoard::new by playing legal
moves (moves drawn from get_possible_moves); the player of each move is
unconstrained, which covers the alternation the game loop performs. -/
inductive Reachable : MetaBoard → Prop where
  | base : Reachable MetaBoard.new
  | step {mb : MetaBoard} {m : MetaMove} (player : Value) : Reachable mb →
      m ∈ mb.get_possible_moves → Reachable (mb.set player m)

end MainB

namespace GR

/-- BitBoards of game.rs reachable from a fresh board by any sequence of
set and unset calls (failed set calls leave the board unchanged and are
covered as well). -/
inductive BBReach : BitBoard → Prop where
  | base : BBReach BitBoard.new
  | set {b : BitBoard} (index : Nat) (player : PlayerMarker) :
      BBReach b → BBReach (b.set index player).1
  | unset {b : BitBoard} (index : List Nat) :
      BBReach b → BBReach (b.unset index)

/-- Well-formedness of a game.rs board: every mask at every level is a
nine-bit u16 value.  Every reachable board satisfies this. -/
def Board.wfm : Board → Prop
  | .bitB bb => bb.x < 512 ∧ bb.o < 512
  | .metaB board subs =>
    (board.x < 512 ∧ board.o < 512) ∧ ∀ i : Fin 9, (subs i).wfm

/-- Reachable game.rs game states: obtained from GameState::new through set
calls with in-range move components (every MoveLocator component is a cell
index below nine) and unset calls — the operation sequence the driver and
the search recursion perform.  Failed set calls are covered because they
leave the state unchanged. -/
inductive GSReach : GameState → Prop where
  | base : GSReach GameState.new
  | step_set {s : GameState} (m : List Nat) : GSReach s →
      (∀ d ∈ m, d < 9) → GSReach (s.set m).1
  | step_unset {s : GameState} (prev : Option (List Nat)) : GSReach s →
      GSReach (s.unset prev)

end GR

/-!
Shared bit-level helper lemmas for u16 masks modelled as Nat.
-/

/-- Bitwise and is zero exactly when no bit is shared; forward direction. -/
theorem land_bits_false_of_eq_zero {a b : Nat} (h : a &&& b = 0) (i : Nat) :
    a.testBit i = false ∨ b.testBit i = false := by
  have hb := congrArg (fun n => n.testBit i) h
  simp [Nat.testBit_and] at hb
  by_cases ha : a.testBit i
  · exact Or.inr (hb ha)
  · exact Or.inl (by simpa using ha)

/-- Bitwise and is zero exactly when no bit is shared; backward direction. -/
theorem land_eq_zero_of_bits_false {a b : Nat}
    (h : ∀ i, a.testBit i = false ∨ b.testBit i = false) : a &&& b = 0 := by
  apply Nat.eq_of_testBit_eq
  intro i
  rcases h i with h1 | h1 <;> simp [Nat.testBit_and, h1]

/-- Or distributes over and on Nat bit masks. -/
theorem lor_land_distrib (a b c : Nat) : (a ||| b) &&& c = (a &&& c) ||| (b &&& c) := by
  apply Nat.eq_of_testBit_eq
  intro i
  simp [Nat.testBit_and, Nat.testBit_or, Bool.and_or_distrib_right]

/-- A disjunction of masks is zero only when both are. -/
theorem lor_eq_zero_split {a b : Nat} (h : a ||| b = 0) : a = 0 ∧ b = 0 := by
  constructor <;>
    · apply Nat.eq_of_testBit_eq
      intro i
      have hb := congrArg (fun n => n.testBit i) h
      simp [Nat.testBit_or] at hb
      simp [hb.1, hb.2]

/-- C8: for every game.rs BitBoard reachable from a fresh board through any
sequence of set and unset operations, the X mask and the O mask never
overlap — their bitwise and is always zero. -/
theorem bbreach_masks_disjoint {b : GR.BitBoard} (h : GR.BBReach b) :
    b.x &&& b.o = 0 := by
  induction h with
  | base => rfl
  | @set b index player hb ih =>
    by_cases hg : (b.x ||| b.o) &&& (1 <<< index) > 0
    · simpa only [GR.BitBoard.set, if_pos hg] using ih
    · have hfree : (b.x ||| b.o) &&& (1 <<< index) = 0 := Nat.eq_zero_of_not_pos hg
      have h2 : (b.x &&& (1 <<< index)) ||| (b.o &&& (1 <<< index)) = 0 := by
        rw [← lor_land_distrib]; exact hfree
      obtain ⟨hxm, hom⟩ := lor_eq_zero_split h2
      cases player with
      | X =>
        simp only [GR.BitBoard.set, if_neg hg]
        apply land_eq_zero_of_bits_false
        intro i
        rcases land_bits_false_of_eq_zero hom i with h1 | h1
        · exact Or.inr h1
        · rcases land_bits_false_of_eq_zero ih i with h2 | h2
          · exact Or.inl (by simp [Nat.testBit_or, h1, h2])
          · exact Or.inr h2
      | O =>
        simp only [GR.BitBoard.set, if_neg hg]
        apply land_eq_zero_of_bits_false
        intro i
        rcases land_bits_false_of_eq_zero hxm i with h1 | h1
        · exact Or.inl h1
        · rcases land_bits_false_of_eq_zero ih i with h2 | h2
          · exact Or.inl h2
          · exact Or.inr (by simp [Nat.testBit_or, h1, h2])
      | Empty => simpa only [GR.BitBoard.set, if_neg hg] using ih
  | @unset b index hb ih =>
    match index with
    | [] => simpa only [GR.BitBoard.unset] using ih
    | [i] =>
      apply land_eq_zero_of_bits_false
      intro j
      rcases land_bits_false_of_eq_zero ih j with h1 | h1
      · exact Or.inl (by simp [GR.BitBoard.unset, Nat.testBit_and, h1])
      · exact Or.inr (by simp [GR.BitBoard.unset, Nat.testBit_and, h1])
    | _ :: _ :: _ => simpa only [GR.BitBoard.unset] using ih

/-- Witness for C8 at a concrete reachable board: one set applied to the
fresh board. -/
theorem bbreach_masks_disjoint_witness :
    ((GR.BitBoard.new.set 4 .X).1).x &&& ((GR.BitBoard.new.set 4 .X).1).o = 0 :=
  bbreach_masks_disjoint (GR.BBReach.set 4 .X GR.BBReach.base)

/-- C9: for every cell index in [0, 9) and every non-empty marker, the leaf
board set of game.rs returns the already-occupied error if and only if one
of the two masks already holds the bit of that cell.  The error is returned
as a value (Except / Rust Result), not raised, so the caller can retry. -/
theorem bitboard_set_occupied_iff (b : GR.BitBoard) (index : Nat)
    (player : GR.PlayerMarker) (hi : index < 9) (hp : player ≠ .Empty) :
    (b.set index player).2 = .error { message := "Move was already played" } ↔
      (b.x &&& (1 <<< index) ≠ 0 ∨ b.o &&& (1 <<< index) ≠ 0) := by
  have hd : (b.x ||| b.o) &&& (1 <<< index) =
      (b.x &&& (1 <<< index)) ||| (b.o &&& (1 <<< index)) := lor_land_distrib ..
  have hiff : (b.x ||| b.o) &&& (1 <<< index) ≠ 0 ↔
      (b.x &&& (1 <<< index) ≠ 0 ∨ b.o &&& (1 <<< index) ≠ 0) := by
    rw [hd]
    constructor
    · intro h
      by_contra hcon
      push_neg at hcon
      rw [hcon.1, hcon.2] at h
      exact h rfl
    · intro h hz
      obtain ⟨h1, h2⟩ := lor_eq_zero_split hz
      rcases h with h | h
      · exact h h1
      · exact h h2
  rw [← hiff]
  by_cases hg : (b.x ||| b.o) &&& (1 <<< index) > 0
  · simp only [GR.BitBoard.set, if_pos hg]
    simpa using Nat.pos_iff_ne_zero.mp hg
  · simp only [GR.BitBoard.set, if_neg hg]
    have h0 : (b.x ||| b.o) &&& (1 <<< index) = 0 := Nat.eq_zero_of_not_pos hg
    simp [h0]

/-- Witness for C9 at a concrete occupied cell: cell 0 is held by X, so a
second X there is rejected. -/
theorem bitboard_set_occupied_iff_witness :
    (GR.BitBoard.set { x := 1, o := 0 } 0 .X).2 =
      .error { message := "Move was already played" } :=
  (bitboard_set_occupied_iff { x := 1, o := 0 } 0 .X (by decide) (by decide)).mpr
    (Or.inl (by decide))

/-- Helper for C10: game.rs BitBoard::set never fails on a cell whose
summary marker reads Empty. -/
theorem bitboard_set_ok_of_get_empty (b : GR.BitBoard) (index : Nat)
    (player : GR.PlayerMarker) (h : b.get index = .Empty) (e : GR.InvalidMoveError) :
    (b.set index player).2 ≠ .error e := by
  have hx : b.x &&& (1 <<< index) = 0 := by
    by_cases hc : b.x &&& (1 <<< index) ≠ 0
    · simp [GR.BitBoard.get, hc] at h
    · simpa using hc
  have ho : b.o &&& (1 <<< index) = 0 := by
    by_cases hc : b.o &&& (1 <<< index) ≠ 0
    · by_cases hcx : b.x &&& (1 <<< index) ≠ 0
      · simp [GR.BitBoard.get, hcx] at h
      · simp [GR.BitBoard.get, hcx, hc] at h
    · simpa using hc
  have h0 : (b.x ||| b.o) &&& (1 <<< index) = 0 := by
    rw [lor_land_distrib, hx, ho]; rfl
  have hg : ¬ (b.x ||| b.o) &&& (1 <<< index) > 0 := by simp [h0]
  simp [GR.BitBoard.set, if_neg hg]

/-- Helper for C10: every error exit of game.rs Board::set (including the
recursive MetaBoard::set levels) leaves the board exactly as it was. -/
theorem board_set_error_unchanged (b : GR.Board) :
    ∀ (idx : List Nat) (p : GR.PlayerMarker) (e : GR.InvalidMoveError),
      (b.set idx p).2 = .error e → (b.set idx p).1 = b := by
  induction b with
  | bitB bb =>
    intro idx p e herr
    match idx with
    | [] => rfl
    | [i] =>
      simp only [GR.Board.set] at herr ⊢
      by_cases hg : (bb.x ||| bb.o) &&& (1 <<< i) > 0
      · simp [GR.BitBoard.set, if_pos hg]
      · simp [GR.BitBoard.set, if_neg hg] at herr
    | _ :: _ :: _ => rfl
  | metaB board subs ih =>
    intro idx p e herr
    match idx with
    | [] => rfl
    | [i] => rfl
    | spec_index :: i :: rest =>
      simp only [GR.Board.set] at herr ⊢
      by_cases hwon : board.get spec_index ≠ .Empty
      · simp [if_pos hwon]
      · simp only [if_neg hwon] at herr ⊢
        by_cases hlt : spec_index < 9
        · simp only [dif_pos hlt] at herr ⊢
          rcases hrec : GR.Board.set (subs ⟨spec_index, hlt⟩) (i :: rest) p with ⟨sub2, r⟩
          cases r with
          | ok marker =>
            simp only [hrec] at herr ⊢
            by_cases hm : marker ≠ GR.PlayerMarker.Empty
            · simp only [if_pos hm] at herr ⊢
              rcases hbs : board.set spec_index marker with ⟨board2, r2⟩
              cases r2 with
              | ok w => simp [hbs] at herr
              | error e2 =>
                exfalso
                have hempty : board.get spec_index = .Empty := by simpa using hwon
                exact bitboard_set_ok_of_get_empty board spec_index marker hempty e2
                  (by simp [hbs])
            · simp [if_neg hm] at herr
          | error e2 =>
            simp only [hrec] at herr ⊢
            have hsub : sub2 = subs ⟨spec_index, hlt⟩ := by
              have := ih ⟨spec_index, hlt⟩ (i :: rest) p e2
              rw [hrec] at this
              exact this rfl
            have hfun : (fun j => if j = ⟨spec_index, hlt⟩ then sub2 else subs j) = subs := by
              funext j
              by_cases hj : j = ⟨spec_index, hlt⟩
              · simp [hj, hsub]
              · simp [hj]
            simp [hfun]
        · simp [dif_neg hlt]

/-- C10: whenever game.rs GameState::set returns an error the state is left
bit-identically unchanged — the board, the player to move and the recorded
last move (atomicity on failure). -/
theorem gamestate_set_error_atomic (s : GR.GameState) (meta_move : List Nat)
    (e : GR.InvalidMoveError) (h : (s.set meta_move).2 = .error e) :
    (s.set meta_move).1 = s := by
  rcases hbs : s.board.set meta_move s.current_player with ⟨board2, r⟩
  cases r with
  | ok marker =>
    exfalso
    simp [GR.GameState.set, hbs] at h
  | error e2 =>
    have hb : board2 = s.board := by
      have := board_set_error_unchanged s.board meta_move s.current_player e2
      rw [hbs] at this
      exact this rfl
    simp [GR.GameState.set, hbs, hb]

/-- Witness for C10: setting with an empty index on the fresh game state
errors and leaves the state unchanged. -/
theorem gamestate_set_error_atomic_witness :
    (GR.GameState.new.set []).1 = GR.GameState.new :=
  gamestate_set_error_atomic GR.GameState.new [] { message := "Index is empty" } rfl

/-- C3 counterexample: a terminal position (the root is decided for X) in
which the recorded player to move is also X.  The claim predicts score 1
(winner equals the player to move); expand_and_playout returns 0. -/
theorem expand_terminal_counterexample :
    V1.mbTerm.get_possible_moves = [] ∧
    V1.mbTerm.get_winner [] = some .X ∧
    V1.mbTerm.current_player = .X ∧
    (V1.GameTreeKnot.newRoot.expand_and_playout V1.mbTerm [] 0).2 ≠ 1 := by
  refine ⟨by decide, by decide, rfl, by decide⟩

/-- C3 amended: on a state with no legal moves, expand_and_playout returns
1/2 on a draw, 0 when the decided winner equals the player to move of the
state, and 1 otherwise. -/
theorem expand_terminal_score (k : V1.GameTreeKnot) (mb : V1.MetaBoard)
    (rng : List Nat) (fuel : Nat) (h : mb.get_possible_moves = []) :
    (k.expand_and_playout mb rng fuel).2 =
      match mb.get_winner [] with
      | some winning_player => if winning_player = mb.current_player then 0 else 1
      | none => 1/2 := by
  simp [V1.GameTreeKnot.expand_and_playout, h]

/-- Witness for the amended C3 theorem at the concrete terminal state. -/
theorem expand_terminal_score_witness :
    (V1.GameTreeKnot.newRoot.expand_and_playout V1.mbTerm [] 0).2 =
      match V1.mbTerm.get_winner [] with
      | some winning_player => if winning_player = V1.mbTerm.current_player then 0 else 1
      | none => 1/2 :=
  expand_terminal_score V1.GameTreeKnot.newRoot V1.mbTerm [] 0 (by decide)

/-- C5 counterexample: the engine observes last move (3, 3) but no root
child carries it; the source keeps the old root (score 5, 7 visits, tagged
with move (0, 0)) instead of creating a brand-new zero-statistics root
tagged with (3, 3). -/
theorem advance_head_counterexample :
    V1.advance_head V1.headC5 (some (V1.MetaMove.fromPair 3 3)) = V1.headC5 ∧
    (V1.advance_head V1.headC5 (some (V1.MetaMove.fromPair 3 3))).move_ ≠
      some (V1.MetaMove.fromPair 3 3) ∧
    (V1.advance_head V1.headC5 (some (V1.MetaMove.fromPair 3 3))).visit_count ≠ 0 := by
  refine ⟨rfl, by decide, by decide⟩

/-- Helper: a successful find? returns the first element satisfying the
predicate. -/
theorem find?_first {α : Type} (p : α → Bool) (l : List α) (c : α)
    (h : l.find? p = some c) :
    ∃ i, ∃ hi : i < l.length, l[i] = c ∧ p c = true ∧
      ∀ j, (hj : j < l.length) → j < i → p (l[j]) = false := by
  induction l with
  | nil => simp at h
  | cons a rest ih =>
    by_cases hpa : p a = true
    · rw [List.find?_cons_of_pos _ hpa] at h
      injection h with h
      subst h
      exact ⟨0, by simp, rfl, hpa, by omega⟩
    · rw [List.find?_cons_of_neg _ (by simpa using hpa)] at h
      obtain ⟨i, hi, hel, hpc, hprev⟩ := ih h
      refine ⟨i + 1, by simpa using Nat.succ_lt_succ hi, by simpa using hel, hpc, ?_⟩
      intro j hj hji
      match j with
      | 0 => simpa using hpa
      | j + 1 =>
        have hj2 : j < rest.length := by simpa using hj
        have := hprev j hj2 (by omega)
        simpa using this

/-- C5 amended: when the engine observes an externally applied last move and
the current root is tagged with a move, then either some child carries the
observed move as its locator, and the FIRST such child — with its score,
visit count and subtree, all siblings discarded — becomes the new root, or
no child matches and the root is left unchanged (no new node is created). -/
theorem advance_head_spec (head : V1.GameTreeKnot) (lm : V1.MetaMove)
    (hm : head.move_.isSome = true) :
    (∃ i, ∃ hi : i < head.children.length,
       (∃ m, (head.children[i]).move_ = some m ∧ m.rustEq lm = true) ∧
       (∀ j, (hj : j < head.children.length) → j < i →
          ∀ m, (head.children[j]).move_ = some m → m.rustEq lm = false) ∧
       V1.advance_head head (some lm) = head.children[i]) ∨
    ((∀ c ∈ head.children, ∀ m, c.move_ = some m → m.rustEq lm = false) ∧
       V1.advance_head head (some lm) = head) := by
  unfold V1.advance_head
  rw [hm]
  simp only [if_true]
  rcases hf : head.children.find? (fun child =>
      match child.move_ with
      | some m => m.rustEq lm
      | none => false) with _ | c
  · right
    rw [hf]
    refine ⟨?_, rfl⟩
    intro c hc m hcm
    have := List.find?_eq_none.mp hf c hc
    simpa [hcm] using this
  · left
    rw [hf]
    obtain ⟨i, hi, hel, hpc, hprev⟩ := find?_first _ _ _ hf
    refine ⟨i, hi, ?_, ?_, hel.symm⟩
    · rcases hcm : c.move_ with _ | m
      · rw [hcm] at hpc
        simp at hpc
      · rw [hcm] at hpc
        exact ⟨m, by rw [hel, hcm], hpc⟩
    · intro j hj hji m hjm
      have := hprev j hj hji
      rw [hjm] at this
      exact this

/-- Witness for the amended C5 theorem: the root of the counterexample with
an observed move matching its only child. -/
theorem advance_head_spec_witness :
    (∃ i, ∃ hi : i < V1.headC5.children.length,
       (∃ m, (V1.headC5.children[i]).move_ = some m ∧
          m.rustEq (V1.MetaMove.fromPair 1 1) = true) ∧
       (∀ j, (hj : j < V1.headC5.children.length) → j < i →
          ∀ m, (V1.headC5.children[j]).move_ = some m →
            m.rustEq (V1.MetaMove.fromPair 1 1) = false) ∧
       V1.advance_head V1.headC5 (some (V1.MetaMove.fromPair 1 1)) =
         V1.headC5.children[i]) ∨
    ((∀ c ∈ V1.headC5.children, ∀ m, c.move_ = some m →
        m.rustEq (V1.MetaMove.fromPair 1 1) = false) ∧
       V1.advance_head V1.headC5 (some (V1.MetaMove.fromPair 1 1)) = V1.headC5) :=
  advance_head_spec V1.headC5 (V1.MetaMove.fromPair 1 1) rfl

/-- C6: at a state with exactly one legal move (which immediately wins the
game for the mover), the playout of the single fresh child scores 1, and
expand_and_playout returns that playout result unchanged — not
1 - playoutResult = 0 as the claim and the perspective-flip convention of
the surrounding selection code require. -/
theorem expand_no_flip_at_failing_input :
    V1.mbC6.get_possible_moves = [V1.MetaMove.fromPair 2 2] ∧
    ((V1.GameTreeKnot.fresh (V1.MetaMove.fromPair 2 2)).playout V1.mbC6 [] 3).2 = 1 ∧
    (V1.GameTreeKnot.newRoot.expand_and_playout V1.mbC6 [0] 3).2 = 1 := by
  refine ⟨by decide, by decide, by decide⟩

/-- C7: a five-move legal game of main.rs (depth 2).  X wins leaf board 76
(block 8) and the last move forwards into that decided board, so the
claimed legal set is the union of empty cells of the undecided sibling
boards of block 8 (boards 72..80).  The code instead scans boards 4..12
(the prefix index is not scaled by the block size and the stored path
digits are reversed), e.g. it offers cell 0 of board 4, which lies outside
the claimed scope, and the two sets differ. -/
theorem main_scan_window_divergence :
    (MainB.c7m1 ∈ MainB.MetaBoard.new.get_possible_moves ∧
     MainB.c7m2 ∈ MainB.c7s1.get_possible_moves ∧
     MainB.c7m3 ∈ MainB.c7s2.get_possible_moves ∧
     MainB.c7m4 ∈ MainB.c7s3.get_possible_moves ∧
     MainB.c7m5 ∈ MainB.c7s4.get_possible_moves) ∧
    ((MainB.c7s5.boardAt 76).can_set = false ∧
     (match MainB.c7s5.last_move with
      | some (_, lm) => lm.shift_left.meta_index
      | none => 0) = 76) ∧
    MainB.MetaMove.fromPair 4 0 ∈ MainB.c7s5.get_possible_moves ∧
    MainB.MetaMove.fromPair 4 0 ∉ MainB.claimedScope MainB.c7s5 ∧
    MainB.c7s5.get_possible_moves ≠ MainB.claimedScope MainB.c7s5 := by
  refine ⟨⟨by decide, by decide, by decide, by decide, by decide⟩,
    ⟨by decide, by decide⟩, by decide, by decide, by decide⟩

/-- Helper: the ratio comparison returns Greater exactly for a strictly
larger left ratio. -/
theorem ratioCompare_gt_iff {a b : ℚ} : V1.ratioCompare a b = .gt ↔ b < a := by
  unfold V1.ratioCompare
  rcases lt_trichotomy a b with h | h | h
  · simp [h, not_lt_of_gt h, ne_of_lt h]
  · simp [h]
  · simp [not_lt_of_gt h, (ne_of_lt h).symm, h]

/-- Helper: max_by over a list extended on the right steps once more. -/
theorem maxByRust_append {α : Type} (cmp : α → α → Ordering) (A : List α) (e m : α)
    (h : V1.maxByRust cmp A = some m) :
    V1.maxByRust cmp (A ++ [e]) = some (if cmp m e = .gt then m else e) := by
  match A with
  | [] => simp [V1.maxByRust] at h
  | a :: rest =>
    simp only [V1.maxByRust, Option.some.injEq] at h
    simp only [List.cons_append, V1.maxByRust, List.foldl_append, List.foldl_cons,
      List.foldl_nil, h]

/-- Helper for C4: max_by on the enumerated children returns the index of
a child with the greatest ratio, later children displacing earlier ones
on ties. -/
theorem maxby_enum_spec (l : List V1.GameTreeKnot) (hne : l ≠ []) :
    ∃ i, ∃ hi : i < l.length,
      V1.maxByRust (fun a b =>
          V1.ratioCompare (V1.GameTreeKnot.ratio a.2) (V1.GameTreeKnot.ratio b.2))
        l.enum = some (i, l[i]) ∧
      (∀ j, (hj : j < l.length) → (l[j]).ratio ≤ (l[i]).ratio) ∧
      (∀ j, (hj : j < l.length) → i < j → (l[j]).ratio < (l[i]).ratio) := by
  induction l using List.reverseRecOn with
  | nil => exact absurd rfl hne
  | append_singleton l x ih =>
    rcases eq_or_ne l [] with rfl | hl
    · simp only [List.nil_append]
      refine ⟨0, by simp, rfl, ?_, ?_⟩
      · intro j hj
        have hj0 : j = 0 := by simp at hj; omega
        subst hj0
        exact le_refl _
      · intro j hj hij
        simp at hj
        omega
    · obtain ⟨i, hi, hmax, hle, hlt⟩ := ih hl
      have henum : (l ++ [x]).enum = l.enum ++ [(l.length, x)] := by
        simp [List.enum_append]
      have hstep := maxByRust_append _ _ (l.length, x) _ hmax
      by_cases hgt : V1.ratioCompare (l[i].ratio) (x.ratio) = .gt
      · have hxlt : x.ratio < l[i].ratio := ratioCompare_gt_iff.mp hgt
        refine ⟨i, by simp only [List.length_append, List.length_cons]; omega, ?_, ?_, ?_⟩
        · rw [henum, hstep, if_pos hgt]
          rw [List.getElem_append_left hi]
        · intro j hj
          have hj2 : j < l.length ∨ j = l.length := by
            simp only [List.length_append, List.length_cons, List.length_nil] at hj
            omega
          rcases hj2 with hj2 | rfl
          · rw [List.getElem_append_left hj2, List.getElem_append_left hi]
            exact hle j hj2
          · simp only [List.getElem_concat_length, List.getElem_append_left hi]
            exact le_of_lt hxlt
        · intro j hj hij
          have hj2 : j < l.length ∨ j = l.length := by
            simp only [List.length_append, List.length_cons, List.length_nil] at hj
            omega
          rcases hj2 with hj2 | rfl
          · rw [List.getElem_append_left hj2, List.getElem_append_left hi]
            exact hlt j hj2 hij
          · simp only [List.getElem_concat_length, List.getElem_append_left hi]
            exact hxlt
      · have hxle : l[i].ratio ≤ x.ratio := by
          by_contra hcon
          exact hgt (ratioCompare_gt_iff.mpr (lt_of_not_le hcon))
        refine ⟨l.length, by simp, ?_, ?_, ?_⟩
        · rw [henum, hstep, if_neg hgt]
          simp only [List.getElem_concat_length]
        · intro j hj
          have hj2 : j < l.length ∨ j = l.length := by
            simp only [List.length_append, List.length_cons, List.length_nil] at hj
            omega
          simp only [List.getElem_concat_length]
          rcases hj2 with hj2 | rfl
          · rw [List.getElem_append_left hj2]
            exact le_trans (hle j hj2) hxle
          · simp only [List.getElem_concat_length]
            exact le_refl _
        · intro j hj hij
          simp only [List.length_append, List.length_cons, List.length_nil] at hj
          omega

/-- C4 counterexample: two root children with the same ratio 1; max_by of
Rust keeps the LAST equal maximum, so the engine returns child 1, not the
first-encountered child 0 the claim requires. -/
theorem best_child_counterexample :
    V1.bestChildIndex V1.headAB = some 1 ∧
    V1.kA.ratio = V1.kB.ratio ∧
    0 < V1.kA.visit_count ∧ 0 < V1.kB.visit_count ∧
    V1.headAB.children = [V1.kA, V1.kB] ∧
    V1.bestChildIndex V1.headAB ≠ some 0 := by
  have hr : V1.ratioCompare (V1.GameTreeKnot.ratio V1.kA) (V1.GameTreeKnot.ratio V1.kB) =
      .eq := by
    norm_num [V1.ratioCompare, V1.GameTreeKnot.ratio, V1.kA, V1.kB]
  refine ⟨?_, ?_, ?_, ?_, rfl, ?_⟩
  · simp [V1.bestChildIndex, V1.headAB, V1.maxByRust, List.enum, List.enumFrom, hr]
  · norm_num [V1.GameTreeKnot.ratio, V1.kA, V1.kB]
  · norm_num [V1.kA]
  · norm_num [V1.kB]
  · simp [V1.bestChildIndex, V1.headAB, V1.maxByRust, List.enum, List.enumFrom, hr]

/-- C4 amended: with a non-empty child list, all children visited, the
best-move selection returns the index of a child whose ratio
score / visit_count is maximal, and every LATER child has a strictly
smaller ratio — on ties the last child in creation order is kept (Rust
max_by), not the first. -/
theorem best_child_last_max (head : V1.GameTreeKnot)
    (hne : head.children ≠ [])
    (hv : ∀ k ∈ head.children, 0 < k.visit_count) :
    ∃ i, ∃ hi : i < head.children.length,
      V1.bestChildIndex head = some i ∧
      (∀ j, (hj : j < head.children.length) →
         (head.children[j]).ratio ≤ (head.children[i]).ratio) ∧
      (∀ j, (hj : j < head.children.length) → i < j →
         (head.children[j]).ratio < (head.children[i]).ratio) := by
  obtain ⟨i, hi, hmax, hle, hlt⟩ := maxby_enum_spec head.children hne
  exact ⟨i, hi, by simp [V1.bestChildIndex, hmax], hle, hlt⟩

/-- Witness for the amended C4 theorem at the concrete two-child root. -/
theorem best_child_last_max_witness :
    ∃ i, ∃ hi : i < V1.headAB.children.length,
      V1.bestChildIndex V1.headAB = some i ∧
      (∀ j, (hj : j < V1.headAB.children.length) →
         (V1.headAB.children[j]).ratio ≤ (V1.headAB.children[i]).ratio) ∧
      (∀ j, (hj : j < V1.headAB.children.length) → i < j →
         (V1.headAB.children[j]).ratio < (V1.headAB.children[i]).ratio) :=
  best_child_last_max V1.headAB (by simp [V1.headAB])
    (by
      intro k hk
      simp [V1.headAB] at hk
      rcases hk with rfl | rfl <;> norm_num [V1.kA, V1.kB])

/-- Helper: a nine-bit mask that is not full has a free cell among the nine
(checked by enumeration over all 512 masks). -/
theorem nine_bit_free : ∀ u, u < 512 → u ≠ 511 →
    ((List.range 9).filter (fun i => u &&& (1 <<< i) == 0)) ≠ [] := by decide

/-- Helper: setting a free bit and clearing it again restores a nine-bit
mask (checked by enumeration; the cleared mask is the u16 complement). -/
theorem set_unset_restore : ∀ x, x < 512 → ∀ b, b < 9 → x &&& (1 <<< b) = 0 →
    (x ||| (1 <<< b)) &&& (65535 ^^^ (1 <<< b)) = x := by decide

/-- Helper: clearing an untouched bit leaves a nine-bit mask unchanged
(checked by enumeration). -/
theorem unset_noop : ∀ x, x < 512 → ∀ b, b < 9 → x &&& (1 <<< b) = 0 →
    x &&& (65535 ^^^ (1 <<< b)) = x := by decide

/-- Helper: members of the free-cell list of a version1.rs bitboard are in
range and free in both masks. -/
theorem bb_mem_empty {b : V1.BitBoard} {bi : Nat}
    (h : bi ∈ b.get_empty_positions) :
    bi < 9 ∧ (b.x ||| b.o) &&& (1 <<< bi) = 0 := by
  unfold V1.BitBoard.get_empty_positions at h
  by_cases hc : b.can_set = true
  · simp only [hc, Bool.not_true, Bool.false_eq_true, if_false] at h
    have hmf := List.mem_filter.mp h
    refine ⟨List.mem_range.mp hmf.1, by simpa using hmf.2⟩
  · simp only [Bool.not_eq_true] at hc
    simp [hc] at h

/-- Helper: a playable version1.rs bitboard with nine-bit masks has a free
cell. -/
theorem bb_empty_nonempty {b : V1.BitBoard} (hx : b.x < 512) (ho : b.o < 512)
    (hc : b.can_set = true) : b.get_empty_positions ≠ [] := by
  have hu : b.x ||| b.o < 512 := Nat.or_lt_two_pow (n := 9) hx ho
  have hfull : (b.x ||| b.o) ≠ 511 := by
    intro heq
    unfold V1.BitBoard.can_set V1.BitBoard.is_full at hc
    simp [heq] at hc
  unfold V1.BitBoard.get_empty_positions
  simp only [hc, Bool.not_true, Bool.false_eq_true, if_false]
  exact nine_bit_free (b.x ||| b.o) hu hfull

/-- Helper: boardAt agrees with list indexing in range. -/
theorem boardAt_eq_getElem {mb : V1.MetaBoard} {i : Nat} (h : i < mb.boards.length) :
    mb.boardAt i = mb.boards[i] := by
  simp [V1.MetaBoard.boardAt, List.getD_eq_getElem?_getD, List.getElem?_eq_getElem h]

/-- Helper: the masks of any addressed board of a well-formed version1.rs
MetaBoard are nine-bit (out-of-range reads hit the default fresh board). -/
theorem wf_boardAt {mb : V1.MetaBoard} (hwf : mb.wfb) (n : Nat) :
    (mb.boardAt n).x < 512 ∧ (mb.boardAt n).o < 512 := by
  obtain ⟨hlen, hmasks, -⟩ := hwf
  by_cases h : n < mb.boards.length
  · rw [boardAt_eq_getElem h]
    exact hmasks _ (List.getElem_mem h)
  · have hd : mb.boardAt n = V1.BitBoard.new := by
      simp only [V1.MetaBoard.boardAt]
      rw [List.getD_eq_getElem?_getD, List.getElem?_eq_none (by omega)]
      rfl
    rw [hd]
    exact ⟨by norm_num [V1.BitBoard.new], by norm_num [V1.BitBoard.new]⟩

/-- Helper: every member of MetaBoard::get_empty_positions is a From pair
with an in-range board, an in-range free cell. -/
theorem mem_meta_empty {mb : V1.MetaBoard} {m : V1.MetaMove}
    (hlen : mb.boards.length = 9) (hm : m ∈ mb.get_empty_positions) :
    ∃ mi bi, m = V1.MetaMove.fromPair mi bi ∧ mi < 9 ∧ bi < 9 ∧
      ((mb.boardAt mi).x ||| (mb.boardAt mi).o) &&& (1 <<< bi) = 0 := by
  unfold V1.MetaBoard.get_empty_positions at hm
  rw [List.mem_flatMap] at hm
  obtain ⟨p, hp, hmm⟩ := hm
  rw [List.mem_map] at hmm
  obtain ⟨bi, hbi, rfl⟩ := hmm
  have hp1 : p.1 < mb.boards.length := List.fst_lt_of_mem_enum hp
  have hp2 : mb.boards[p.1]? = some p.2 := List.mem_enum_iff_getElem?.mp hp
  rw [List.getElem?_eq_getElem hp1] at hp2
  have hp2b : p.2 = mb.boards[p.1] := by
    injection hp2 with h
    exact h.symm
  obtain ⟨hbi9, hfree⟩ := bb_mem_empty hbi
  refine ⟨p.1, bi, rfl, by omega, hbi9, ?_⟩
  rw [boardAt_eq_getElem hp1, ← hp2b]
  exact hfree

/-- Helper: a well-formed board with a playable sub-board has a free cell
somewhere. -/
theorem meta_empty_nonempty {mb : V1.MetaBoard} (hwf : mb.wfb) {i : Nat}
    (hi : i < 9) (hcs : (mb.boardAt i).can_set = true) :
    mb.get_empty_positions ≠ [] := by
  obtain ⟨hlen, hmasks, -⟩ := hwf
  have hil : i < mb.boards.length := by omega
  intro h
  rw [V1.MetaBoard.get_empty_positions, List.flatMap_eq_nil_iff] at h
  have hmem : (i, mb.boards[i]) ∈ mb.boards.enum :=
    List.mk_mem_enum_iff_getElem?.mpr (by simp [hil])
  have hz := h _ hmem
  simp only at hz
  have hne : (mb.boards[i]).get_empty_positions ≠ [] := by
    apply bb_empty_nonempty (hmasks _ (List.getElem_mem hil)).1
      (hmasks _ (List.getElem_mem hil)).2
    rw [← boardAt_eq_getElem hil]
    exact hcs
  rw [List.map_eq_nil_iff] at hz
  exact hne hz

/-- Helper: the ascending loop of version1.rs get_possible_moves stops at 0
or at the depth cap 1. -/
theorem ascend_cases (mb : V1.MetaBoard) (abs : List Nat) :
    mb.ascend abs = 0 ∨ mb.ascend abs = 1 := by
  have e2 : mb.ascend abs =
      if (mb.get_winner (abs.take 0)).isSome || (0 == V1.META_BOARD_DEPTH) then 0
      else if (mb.get_winner (abs.take 1)).isSome || (1 == V1.META_BOARD_DEPTH) then 1
      else 2 := rfl
  rw [e2]
  split
  · exact Or.inl rfl
  · split
    · exact Or.inr rfl
    · rename_i hcon
      exfalso
      apply hcon
      simp [V1.META_BOARD_DEPTH]

/-- Helper: members of the level-0 scan window are From pairs over the nine
boards with free in-range cells. -/
theorem mem_scan0 {mb : V1.MetaBoard} {abs : List Nat} {m : V1.MetaMove}
    (hm : m ∈ mb.scanLevel abs 0) :
    ∃ mi bi, m = V1.MetaMove.fromPair mi bi ∧ mi < 9 ∧ bi < 9 ∧
      ((mb.boardAt mi).x ||| (mb.boardAt mi).o) &&& (1 <<< bi) = 0 := by
  unfold V1.MetaBoard.scanLevel at hm
  rw [List.mem_flatMap] at hm
  obtain ⟨meta_index, hmeta, hmm⟩ := hm
  have hmeta9 : meta_index < 9 := by
    rw [List.take_zero] at hmeta
    have h9 := (List.mem_range'.mp hmeta)
    obtain ⟨k, hk, rfl⟩ := h9
    simp [V1.MetaMove.absolute_index_to_meta]
    omega
  by_cases hcs : (mb.boardAt meta_index).can_set = true
  · rw [if_pos hcs] at hmm
    rw [List.mem_map] at hmm
    obtain ⟨bi, hbi, rfl⟩ := hmm
    obtain ⟨hbi9, hfree⟩ := bb_mem_empty hbi
    exact ⟨meta_index, bi, rfl, hmeta9, hbi9, hfree⟩
  · rw [if_neg hcs] at hmm
    exact absurd hmm (List.not_mem_nil m)

/-- Helper: the forwarded target index of a shifted last move is its cell
index when the recorded path has length one (META_BOARD_DEPTH = 1). -/
theorem shift_meta_of_len1 {last : V1.MetaMove}
    (hlen1 : last.absolute_index.length = 1) :
    last.shift_left.meta_index = last.board_index := by
  obtain ⟨a, ha⟩ := List.length_eq_one.mp hlen1
  unfold V1.MetaMove.shift_left
  rw [ha]
  simp [V1.MetaMove.absolute_index_to_meta]

/-- Helper: every legal move of a well-formed version1.rs board is a From
pair addressing an in-range board at an in-range free cell. -/
theorem mem_gpm {mb : V1.MetaBoard} (hwf : mb.wfb) {m : V1.MetaMove}
    (hm : m ∈ mb.get_possible_moves) :
    ∃ mi bi, m = V1.MetaMove.fromPair mi bi ∧ mi < 9 ∧ bi < 9 ∧
      ((mb.boardAt mi).x ||| (mb.boardAt mi).o) &&& (1 <<< bi) = 0 := by
  unfold V1.MetaBoard.get_possible_moves at hm
  rcases hlm : mb.last_move with _ | last
  · rw [hlm] at hm
    exact mem_meta_empty hwf.1 hm
  · rw [hlm] at hm
    by_cases hwin : (mb.get_winner []).isSome = true
    · simp [hwin] at hm
    · rw [Bool.not_eq_true] at hwin
      rw [hwin] at hm
      simp only [Bool.false_eq_true, if_false] at hm
      by_cases hts : (mb.boardAt last.shift_left.meta_index).can_set = true
      · rw [if_pos hts] at hm
        rw [List.mem_map] at hm
        obtain ⟨bi, hbi, rfl⟩ := hm
        obtain ⟨hbi9, hfree⟩ := bb_mem_empty hbi
        obtain ⟨-, -, hlast⟩ := hwf
        obtain ⟨hb9, hlen1⟩ := hlast last hlm
        refine ⟨_, bi, rfl, ?_, hbi9, hfree⟩
        rw [shift_meta_of_len1 hlen1]
        exact hb9
      · rw [if_neg hts] at hm
        by_cases hi0 : mb.ascend last.absolute_index = 0
        · simp [hi0] at hm
        · rw [if_neg hi0] at hm
          have h1 : mb.ascend last.absolute_index = 1 :=
            (ascend_cases mb last.absolute_index).resolve_left hi0
          rw [h1] at hm
          have hr1 : (List.range 1).reverse = [0] := rfl
          rw [hr1] at hm
          unfold V1.MetaBoard.descend at hm
          by_cases hv : (mb.scanLevel last.absolute_index 0).isEmpty = true
          · rw [if_pos hv] at hm
            unfold V1.MetaBoard.descend at hm
            exact mem_meta_empty hwf.1 hm
          · rw [if_neg hv] at hm
            exact mem_scan0 hm

/-- Helper: a cell mask of an in-range cell is nine-bit. -/
theorem shift9_lt : ∀ b, b < 9 → (1 <<< b) < 512 := by decide

/-- Helper: the path stored by From<(usize, usize)> always has length one at
depth one. -/
theorem m2a_length (mi : Nat) : (V1.MetaMove.meta_to_absolute_index mi).length = 1 := by
  have h : V1.MetaMove.meta_to_absolute_index mi = [mi % 9] := rfl
  rw [h]
  rfl

/-- Helper: every reachable version1.rs board is well formed. -/
theorem reach_wf {mb : V1.MetaBoard} (h : V1.Reachable mb) : mb.wfb := by
  induction h with
  | base =>
    refine ⟨by simp [V1.MetaBoard.new], ?_, ?_⟩
    · intro b hb
      simp only [V1.MetaBoard.new] at hb
      rw [List.eq_of_mem_replicate hb]
      exact ⟨by norm_num [V1.BitBoard.new], by norm_num [V1.BitBoard.new]⟩
    · intro lm hlm
      simp [V1.MetaBoard.new] at hlm
  | @step mb m hr hmem ih =>
    obtain ⟨mi, bi, rfl, hmi, hbi, hfree⟩ := mem_gpm ih hmem
    obtain ⟨hlen, hmasks, hlast⟩ := ih
    refine ⟨by simp [V1.MetaBoard.set, hlen], ?_, ?_⟩
    · intro b hb
      simp only [V1.MetaBoard.set] at hb
      rcases List.mem_or_eq_of_mem_set hb with hb2 | rfl
      · exact hmasks b hb2
      · have hx := wf_boardAt ⟨hlen, hmasks, hlast⟩ (V1.MetaMove.fromPair mi bi).meta_index
        have hmask : (1 <<< (V1.MetaMove.fromPair mi bi).board_index) < 512 :=
          shift9_lt _ hbi
        cases hcur : mb.current_player with
        | X =>
          simp only [V1.BitBoard.set, hcur]
          exact ⟨Nat.or_lt_two_pow (n := 9) hx.1 hmask, hx.2⟩
        | O =>
          simp only [V1.BitBoard.set, hcur]
          exact ⟨hx.1, Nat.or_lt_two_pow (n := 9) hx.2 hmask⟩
    · intro lm hlm
      simp only [V1.MetaBoard.set, Option.some.injEq] at hlm
      rw [← hlm]
      exact ⟨hbi, m2a_length mi⟩

/-- Helper, version1.rs half of C1: on every reachable board that is not
over — the root has no winner and at least one sub-board still accepts a
move — get_possible_moves returns a non-empty list. -/
theorem v1_possible_moves_nonempty (mb : V1.MetaBoard) (hr : V1.Reachable mb)
    (hw : mb.get_winner [] = none)
    (hc : ∃ i, i < 9 ∧ (mb.boardAt i).can_set = true) :
    mb.get_possible_moves ≠ [] := by
  have hwf := reach_wf hr
  obtain ⟨i, hi9, hcs⟩ := hc
  unfold V1.MetaBoard.get_possible_moves
  rcases hlm : mb.last_move with _ | last
  · exact meta_empty_nonempty hwf hi9 hcs
  · rw [hw]
    simp only [Option.isSome_none, Bool.false_eq_true, if_false]
    by_cases hts : (mb.boardAt last.shift_left.meta_index).can_set = true
    · rw [if_pos hts]
      have hb := wf_boardAt hwf last.shift_left.meta_index
      have hne := bb_empty_nonempty hb.1 hb.2 hts
      simpa [List.map_eq_nil_iff] using hne
    · rw [if_neg hts]
      have h1 : mb.ascend last.absolute_index = 1 := by
        have e2 : mb.ascend last.absolute_index =
            if (mb.get_winner (last.absolute_index.take 0)).isSome ||
                (0 == V1.META_BOARD_DEPTH) then 0
            else if (mb.get_winner (last.absolute_index.take 1)).isSome ||
                (1 == V1.META_BOARD_DEPTH) then 1
            else 2 := rfl
        rw [e2, List.take_zero, hw]
        simp [V1.META_BOARD_DEPTH]
      simp only [h1, one_ne_zero, if_false]
      have hr1 : (List.range 1).reverse = [0] := rfl
      rw [hr1]
      unfold V1.MetaBoard.descend
      by_cases hv : (mb.scanLevel last.absolute_index 0).isEmpty = true
      · rw [if_pos hv]
        unfold V1.MetaBoard.descend
        exact meta_empty_nonempty hwf hi9 hcs
      · rw [if_neg hv]
        intro hnil
        rw [← List.isEmpty_iff] at hnil
        exact hv hnil

/-- Helper: flipping the player twice is the identity. -/
theorem other_other (p : V1.PlayerMarker) : p.other.other = p := by
  cases p <;> rfl

/-- Helper: writing back the element already stored leaves a list
unchanged. -/
theorem list_set_self {α : Type} (l : List α) (i : Nat) (h : i < l.length) :
    l.set i l[i] = l := by
  apply List.ext_getElem
  · simp
  · intro n h1 h2
    rw [List.getElem_set]
    split
    · rename_i heq
      subst heq
      rfl
    · rfl

/-- Helper: a bitboard write followed by the matching clear restores the
board, provided the cell was free and the masks are nine-bit. -/
theorem bb_set_unset {b : V1.BitBoard} {p : V1.PlayerMarker} {bi : Nat}
    (hx : b.x < 512) (ho : b.o < 512) (hbi : bi < 9)
    (hfree : (b.x ||| b.o) &&& (1 <<< bi) = 0) :
    (b.set p bi).unset p bi = b := by
  have hsplit : (b.x &&& (1 <<< bi)) ||| (b.o &&& (1 <<< bi)) = 0 := by
    rw [← lor_land_distrib]
    exact hfree
  obtain ⟨hxm, hom⟩ := lor_eq_zero_split hsplit
  cases p with
  | X =>
    simp only [V1.BitBoard.set, V1.BitBoard.unset]
    rw [set_unset_restore b.x hx bi hbi hxm]
  | O =>
    simp only [V1.BitBoard.set, V1.BitBoard.unset]
    rw [set_unset_restore b.o ho bi hbi hom]

/-- Helper, version1.rs half of C2: on every reachable board, applying a
legal move with set and then undoing it with unset, passing the prior last
move as the previous-move argument, restores the board bit-identically. -/
theorem v1_set_unset_roundtrip (mb : V1.MetaBoard) (hr : V1.Reachable mb)
    (m : V1.MetaMove) (hm : m ∈ mb.get_possible_moves) :
    (mb.set m).unset mb.last_move = mb := by
  have hwf := reach_wf hr
  obtain ⟨mi, bi, rfl, hmi, hbi, hfree⟩ := mem_gpm hwf hm
  obtain ⟨hlen, hmasks, hlast⟩ := hwf
  have hmil : mi < mb.boards.length := by omega
  have hmeta : (V1.MetaMove.fromPair mi bi).meta_index = mi := rfl
  have hbidx : (V1.MetaMove.fromPair mi bi).board_index = bi := rfl
  have hstep : (mb.set (V1.MetaMove.fromPair mi bi)).unset mb.last_move =
      { boards := (mb.boards.set mi
          ((mb.boardAt mi).set mb.current_player bi)).set mi
            ((((mb.set (V1.MetaMove.fromPair mi bi)).boardAt mi)).unset
              mb.current_player.other.other bi),
        last_move := mb.last_move,
        current_player := mb.current_player.other.other } := by
    rfl
  rw [hstep]
  have hat : (mb.set (V1.MetaMove.fromPair mi bi)).boardAt mi =
      (mb.boardAt mi).set mb.current_player bi := by
    simp only [V1.MetaBoard.set, hmeta, V1.MetaBoard.boardAt]
    rw [List.getD_eq_getElem?_getD, List.getElem?_set_self (by omega)]
    rfl
  rw [hat, other_other]
  have hb := wf_boardAt ⟨hlen, hmasks, hlast⟩ mi
  rw [bb_set_unset hb.1 hb.2 hbi hfree]
  rw [List.set_set, boardAt_eq_getElem hmil, list_set_self _ _ hmil]



/-- Helper: members of the free-cell list of a main.rs bitboard are in
range and free in both masks. -/
theorem main_bb_mem_empty {b : MainB.BitBoard} {bi : Nat}
    (h : bi ∈ b.get_empty_positions) :
    bi < 9 ∧ (b.x ||| b.o) &&& (1 <<< bi) = 0 := by
  unfold MainB.BitBoard.get_empty_positions at h
  by_cases hc : b.can_set = true
  · simp only [hc, Bool.not_true, Bool.false_eq_true, if_false] at h
    have hmf := List.mem_filter.mp h
    refine ⟨List.mem_range.mp hmf.1, by simpa using hmf.2⟩
  · simp only [Bool.not_eq_true] at hc
    simp [hc] at h

/-- Helper: a playable main.rs bitboard with nine-bit masks has a free
cell. -/
theorem main_bb_empty_nonempty {b : MainB.BitBoard} (hx : b.x < 512)
    (ho : b.o < 512) (hc : b.can_set = true) : b.get_empty_positions ≠ [] := by
  have hu : b.x ||| b.o < 512 := Nat.or_lt_two_pow (n := 9) hx ho
  have hfull : (b.x ||| b.o) ≠ 511 := by
    intro heq
    unfold MainB.BitBoard.can_set MainB.BitBoard.is_full at hc
    simp [heq] at hc
  unfold MainB.BitBoard.get_empty_positions
  simp only [hc, Bool.not_true, Bool.false_eq_true, if_false]
  exact nine_bit_free (b.x ||| b.o) hu hfull

/-- Helper: main.rs boardAt agrees with list indexing in range. -/
theorem main_boardAt_eq_getElem {mb : MainB.MetaBoard} {i : Nat}
    (h : i < mb.boards.length) : mb.boardAt i = mb.boards[i] := by
  simp [MainB.MetaBoard.boardAt, List.getD_eq_getElem?_getD, List.getElem?_eq_getElem h]

/-- Helper: the masks of any addressed board of a well-formed main.rs
MetaBoard are nine-bit. -/
theorem main_wf_boardAt {mb : MainB.MetaBoard} (hwf : mb.wfb) (n : Nat) :
    (mb.boardAt n).x < 512 ∧ (mb.boardAt n).o < 512 := by
  obtain ⟨hlen, hmasks⟩ := hwf
  by_cases h : n < mb.boards.length
  · rw [main_boardAt_eq_getElem h]
    exact hmasks _ (List.getElem_mem h)
  · have hd : mb.boardAt n = MainB.BitBoard.new := by
      simp only [MainB.MetaBoard.boardAt]
      rw [List.getD_eq_getElem?_getD, List.getElem?_eq_none (by omega)]
      rfl
    rw [hd]
    exact ⟨by norm_num [MainB.BitBoard.new], by norm_num [MainB.BitBoard.new]⟩

/-- Helper: a well-formed main.rs board with a playable leaf board has a
free cell somewhere. -/
theorem main_meta_empty_nonempty {mb : MainB.MetaBoard} (hwf : mb.wfb)
    {i : Nat} (hi : i < 81) (hcs : (mb.boardAt i).can_set = true) :
    mb.get_empty_positions ≠ [] := by
  obtain ⟨hlen, hmasks⟩ := hwf
  have hil : i < mb.boards.length := by omega
  intro h
  rw [MainB.MetaBoard.get_empty_positions, List.flatMap_eq_nil_iff] at h
  have hmem : (i, mb.boards[i]) ∈ mb.boards.enum :=
    List.mk_mem_enum_iff_getElem?.mpr (by simp [hil])
  have hz := h _ hmem
  simp only at hz
  have hne : (mb.boards[i]).get_empty_positions ≠ [] := by
    apply main_bb_empty_nonempty (hmasks _ (List.getElem_mem hil)).1
      (hmasks _ (List.getElem_mem hil)).2
    rw [← main_boardAt_eq_getElem hil]
    exact hcs
  rw [List.map_eq_nil_iff] at hz
  exact hne hz

/-- Helper: members of main.rs MetaBoard::get_empty_positions carry a cell
index below nine. -/
theorem main_mem_empty_bi {mb : MainB.MetaBoard} {m : MainB.MetaMove}
    (hm : m ∈ mb.get_empty_positions) : m.board_index < 9 := by
  unfold MainB.MetaBoard.get_empty_positions at hm
  rw [List.mem_flatMap] at hm
  obtain ⟨p, hp, hmm⟩ := hm
  rw [List.mem_map] at hmm
  obtain ⟨bi, hbi, rfl⟩ := hmm
  exact (main_bb_mem_empty hbi).1

/-- Helper: members of any scan window of main.rs carry a cell index below
nine. -/
theorem main_mem_scan_bi {mb : MainB.MetaBoard} {abs : List Nat} {lvl : Nat}
    {m : MainB.MetaMove} (hm : m ∈ mb.scanLevel abs lvl) : m.board_index < 9 := by
  unfold MainB.MetaBoard.scanLevel at hm
  rw [List.mem_flatMap] at hm
  obtain ⟨meta_index, hmeta, hmm⟩ := hm
  by_cases hcs : (mb.boardAt meta_index).can_set = true
  · rw [if_pos hcs] at hmm
    rw [List.mem_map] at hmm
    obtain ⟨bi, hbi, rfl⟩ := hmm
    exact (main_bb_mem_empty hbi).1
  · rw [if_neg hcs] at hmm
    exact absurd hmm (List.not_mem_nil m)

/-- Helper: members of the descending loop come from a scan window or from
the final fallback. -/
theorem main_mem_descend {mb : MainB.MetaBoard} {abs : List Nat}
    {m : MainB.MetaMove} :
    ∀ L : List Nat, m ∈ mb.descend abs L →
      (∃ lvl ∈ L, m ∈ mb.scanLevel abs lvl) ∨ m ∈ mb.get_empty_positions := by
  intro L
  induction L with
  | nil =>
    intro hm
    exact Or.inr hm
  | cons lvl rest ih =>
    intro hm
    unfold MainB.MetaBoard.descend at hm
    by_cases hv : (mb.scanLevel abs lvl).isEmpty = true
    · rw [if_pos hv] at hm
      rcases ih hm with ⟨l2, hl2, hs⟩ | hf
      · exact Or.inl ⟨l2, List.mem_cons_of_mem _ hl2, hs⟩
      · exact Or.inr hf
    · rw [if_neg hv] at hm
      exact Or.inl ⟨lvl, List.mem_cons_self .., hm⟩

/-- Helper: every legal move of main.rs carries a cell index below nine. -/
theorem main_mem_gpm_bi {mb : MainB.MetaBoard} {m : MainB.MetaMove}
    (hm : m ∈ mb.get_possible_moves) : m.board_index < 9 := by
  unfold MainB.MetaBoard.get_possible_moves at hm
  by_cases hwin : (mb.get_winner []).isSome = true
  · simp [hwin] at hm
  · rw [Bool.not_eq_true] at hwin
    rw [hwin] at hm
    simp only [Bool.false_eq_true, if_false] at hm
    rcases hlm : mb.last_move with _ | ⟨pl, last⟩
    · rw [hlm] at hm
      exact main_mem_empty_bi hm
    · rw [hlm] at hm
      dsimp only at hm
      by_cases hts : (mb.boardAt last.shift_left.meta_index).can_set = true
      · rw [if_pos hts] at hm
        rw [List.mem_map] at hm
        obtain ⟨bi, hbi, rfl⟩ := hm
        exact (main_bb_mem_empty hbi).1
      · rw [if_neg hts] at hm
        by_cases hi0 : mb.ascend last.absolute_index = 0
        · simp [hi0] at hm
        · rw [if_neg hi0] at hm
          rcases main_mem_descend _ hm with ⟨lvl, -, hs⟩ | hf
          · exact main_mem_scan_bi hs
          · exact main_mem_empty_bi hf

/-- Helper: every reachable main.rs board is well formed. -/
theorem main_reach_wf {mb : MainB.MetaBoard} (h : MainB.Reachable mb) : mb.wfb := by
  induction h with
  | base =>
    refine ⟨by simp [MainB.MetaBoard.new, MainB.META_BOARD_SIZE], ?_⟩
    intro b hb
    simp only [MainB.MetaBoard.new] at hb
    rw [List.eq_of_mem_replicate hb]
    exact ⟨by norm_num [MainB.BitBoard.new], by norm_num [MainB.BitBoard.new]⟩
  | @step mb m player hr hmem ih =>
    obtain ⟨hlen, hmasks⟩ := ih
    have hbi := main_mem_gpm_bi hmem
    refine ⟨by simp [MainB.MetaBoard.set, hlen], ?_⟩
    intro b hb
    simp only [MainB.MetaBoard.set] at hb
    rcases List.mem_or_eq_of_mem_set hb with hb2 | rfl
    · exact hmasks b hb2
    · have hx := main_wf_boardAt ⟨hlen, hmasks⟩ m.meta_index
      have hmask : (1 <<< m.board_index) < 512 := shift9_lt _ hbi
      cases player with
      | X =>
        simp only [MainB.BitBoard.set]
        exact ⟨Nat.or_lt_two_pow (n := 9) hx.1 hmask, hx.2⟩
      | O =>
        simp only [MainB.BitBoard.set]
        exact ⟨hx.1, Nat.or_lt_two_pow (n := 9) hx.2 hmask⟩

/-- Helper: under an undecided root the ascending loop of main.rs never
stops at zero. -/
theorem main_ascend_ne_zero {mb : MainB.MetaBoard} (abs : List Nat)
    (hw : mb.get_winner [] = none) : mb.ascend abs ≠ 0 := by
  have e3 : mb.ascend abs =
      if (mb.get_winner (abs.take 0)).isSome || (0 == MainB.META_BOARD_DEPTH) then 0
      else if (mb.get_winner (abs.take 1)).isSome || (1 == MainB.META_BOARD_DEPTH) then 1
      else if (mb.get_winner (abs.take 2)).isSome || (2 == MainB.META_BOARD_DEPTH) then 2
      else 3 := rfl
  rw [e3, List.take_zero, hw]
  simp only [Option.isSome_none, Bool.or_eq_true]
  split
  · rename_i hcon
    rcases hcon with hcon | hcon
    · simp at hcon
    · simp [MainB.META_BOARD_DEPTH] at hcon
  · split
    · omega
    · split
      · omega
      · rename_i hcon
        exfalso
        apply hcon
        right
        simp [MainB.META_BOARD_DEPTH]

/-- Helper: the descending loop of main.rs never returns an empty list when
the global fallback is non-empty. -/
theorem main_descend_ne_nil {mb : MainB.MetaBoard} {abs : List Nat}
    (hf : mb.get_empty_positions ≠ []) :
    ∀ L : List Nat, mb.descend abs L ≠ [] := by
  intro L
  induction L with
  | nil => exact hf
  | cons lvl rest ih =>
    unfold MainB.MetaBoard.descend
    by_cases hv : (mb.scanLevel abs lvl).isEmpty = true
    · rw [if_pos hv]
      exact ih
    · rw [if_neg hv]
      intro hnil
      rw [← List.isEmpty_iff] at hnil
      exact hv hnil

/-- Helper, main.rs half of C1: on every reachable depth-2 board that is
not over, get_possible_moves returns a non-empty list. -/
theorem main_possible_moves_nonempty (mb : MainB.MetaBoard)
    (hr : MainB.Reachable mb) (hw : mb.get_winner [] = none)
    (hc : ∃ i, i < 81 ∧ (mb.boardAt i).can_set = true) :
    mb.get_possible_moves ≠ [] := by
  have hwf := main_reach_wf hr
  obtain ⟨i, hi, hcs⟩ := hc
  have hfb : mb.get_empty_positions ≠ [] := main_meta_empty_nonempty hwf hi hcs
  unfold MainB.MetaBoard.get_possible_moves
  rw [hw]
  simp only [Option.isSome_none, Bool.false_eq_true, if_false]
  rcases hlm : mb.last_move with _ | ⟨pl, last⟩
  · exact hfb
  · dsimp only
    by_cases hts : (mb.boardAt last.shift_left.meta_index).can_set = true
    · rw [if_pos hts]
      have hb := main_wf_boardAt hwf last.shift_left.meta_index
      have hne := main_bb_empty_nonempty hb.1 hb.2 hts
      simpa [List.map_eq_nil_iff] using hne
    · rw [if_neg hts]
      rw [if_neg (main_ascend_ne_zero last.absolute_index hw)]
      exact main_descend_ne_nil hfb _

/-- C1: on every reachable board state that is not over — the root has no
winner and at least one sub-board still accepts a move — the legal-move
enumeration get_possible_moves returns a non-empty list of moves; proved
for both cited implementations, version1.rs (depth 1, nine leaf boards)
and main.rs (depth 2, 81 leaf boards). -/
theorem possible_moves_nonempty :
    (∀ mb : V1.MetaBoard, V1.Reachable mb → mb.get_winner [] = none →
      (∃ i, i < 9 ∧ (mb.boardAt i).can_set = true) →
      mb.get_possible_moves ≠ []) ∧
    (∀ mb : MainB.MetaBoard, MainB.Reachable mb → mb.get_winner [] = none →
      (∃ i, i < 81 ∧ (mb.boardAt i).can_set = true) →
      mb.get_possible_moves ≠ []) :=
  ⟨v1_possible_moves_nonempty, main_possible_moves_nonempty⟩

/-- Witness for C1 at the two fresh boards, which are reachable, undecided
and have board 0 playable. -/
theorem possible_moves_nonempty_witness :
    V1.MetaBoard.new.get_possible_moves ≠ [] ∧
    MainB.MetaBoard.new.get_possible_moves ≠ [] :=
  ⟨possible_moves_nonempty.1 V1.MetaBoard.new V1.Reachable.base (by decide)
      ⟨0, by decide, by decide⟩,
   possible_moves_nonempty.2 MainB.MetaBoard.new MainB.Reachable.base (by decide)
      ⟨0, by decide, by decide⟩⟩

/-- Helper: flipping a game.rs marker twice is the identity. -/
theorem to_other_involutive (p : GR.PlayerMarker) : p.to_other.to_other = p := by
  cases p <;> rfl

/-- Helper: a cell whose game.rs summary marker reads Empty is clear in both
masks. -/
theorem bb_get_empty_bits {b : GR.BitBoard} {i : Nat} (h : b.get i = .Empty) :
    b.x &&& (1 <<< i) = 0 ∧ b.o &&& (1 <<< i) = 0 := by
  constructor
  · by_cases hc : b.x &&& (1 <<< i) ≠ 0
    · simp [GR.BitBoard.get, hc] at h
    · simpa using hc
  · by_cases hc : b.o &&& (1 <<< i) ≠ 0
    · by_cases hcx : b.x &&& (1 <<< i) ≠ 0
      · simp [GR.BitBoard.get, hcx] at h
      · simp [GR.BitBoard.get, hcx, hc] at h
    · simpa using hc

/-- Helper: clearing a cell that reads Empty leaves a nine-bit game.rs
bitboard unchanged. -/
theorem gr_bb_unset_noop {b : GR.BitBoard} {i : Nat} (hx : b.x < 512)
    (ho : b.o < 512) (hi : i < 9) (h : b.get i = .Empty) :
    b.unset [i] = b := by
  obtain ⟨hxm, hom⟩ := bb_get_empty_bits h
  simp only [GR.BitBoard.unset]
  rw [unset_noop b.x hx i hi hxm, unset_noop b.o ho i hi hom]

/-- Helper: a successful game.rs leaf write followed by the matching unset
restores the leaf, for nine-bit masks and an in-range cell. -/
theorem gr_bb_set_unset {b : GR.BitBoard} {i : Nat} {p : GR.PlayerMarker}
    {marker : GR.PlayerMarker} (hx : b.x < 512) (ho : b.o < 512) (hi : i < 9)
    (hok : (b.set i p).2 = .ok marker) : (b.set i p).1.unset [i] = b := by
  by_cases hg : (b.x ||| b.o) &&& (1 <<< i) > 0
  · simp [GR.BitBoard.set, if_pos hg] at hok
  · have hfree : (b.x ||| b.o) &&& (1 <<< i) = 0 := Nat.eq_zero_of_not_pos hg
    have h2 : (b.x &&& (1 <<< i)) ||| (b.o &&& (1 <<< i)) = 0 := by
      rw [← lor_land_distrib]
      exact hfree
    obtain ⟨hxm, hom⟩ := lor_eq_zero_split h2
    cases p with
    | X =>
      simp only [GR.BitBoard.set, if_neg hg, GR.BitBoard.unset]
      rw [set_unset_restore b.x hx i hi hxm, unset_noop b.o ho i hi hom]
    | O =>
      simp only [GR.BitBoard.set, if_neg hg, GR.BitBoard.unset]
      rw [set_unset_restore b.o ho i hi hom, unset_noop b.x hx i hi hxm]
    | Empty =>
      simp only [GR.BitBoard.set, if_neg hg, GR.BitBoard.unset]
      rw [unset_noop b.x hx i hi hxm, unset_noop b.o ho i hi hom]

/-- Helper, core of the game.rs half of C2: a successful Board::set followed
by Board::unset on the same index restores every level of a well-formed
recursive board. -/
theorem gr_board_set_unset (b : GR.Board) :
    ∀ (idx : List Nat) (p marker : GR.PlayerMarker), b.wfm →
      (∀ d ∈ idx, d < 9) → (b.set idx p).2 = .ok marker →
      (b.set idx p).1.unset idx = b := by
  induction b with
  | bitB bb =>
    intro idx p marker hwf hidx hok
    match idx with
    | [] => simp [GR.Board.set] at hok
    | [i] =>
      simp only [GR.Board.set] at hok ⊢
      simp only [GR.Board.unset]
      rw [gr_bb_set_unset hwf.1 hwf.2 (hidx i (by simp)) hok]
    | _ :: _ :: _ => simp [GR.Board.set] at hok
  | metaB board subs ih =>
    intro idx p marker hwf hidx hok
    match idx with
    | [] => simp [GR.Board.set] at hok
    | [_] => simp [GR.Board.set] at hok
    | spec_index :: i :: rest =>
      obtain ⟨hbwf, hswf⟩ := hwf
      have hspec9 : spec_index < 9 := hidx spec_index (by simp)
      have hrest9 : ∀ d ∈ i :: rest, d < 9 := by
        intro d hd
        exact hidx d (List.mem_cons_of_mem _ hd)
      simp only [GR.Board.set] at hok ⊢
      by_cases hwon : board.get spec_index ≠ .Empty
      · simp [if_pos hwon] at hok
      · simp only [if_neg hwon, dif_pos hspec9] at hok ⊢
        have hempty : board.get spec_index = .Empty := by simpa using hwon
        rcases hrec : GR.Board.set (subs ⟨spec_index, hspec9⟩) (i :: rest) p
          with ⟨sub2, r⟩
        cases r with
        | error e => simp [hrec] at hok
        | ok mk =>
          simp only [hrec] at hok ⊢
          have hsub2 : sub2.unset (i :: rest) = subs ⟨spec_index, hspec9⟩ := by
            have := ih ⟨spec_index, hspec9⟩ (i :: rest) p mk
              (hswf ⟨spec_index, hspec9⟩) hrest9
            rw [hrec] at this
            exact this rfl
          by_cases hmk : mk ≠ GR.PlayerMarker.Empty
          · simp only [if_pos hmk] at hok ⊢
            rcases hbs : board.set spec_index mk with ⟨board2, r2⟩
            cases r2 with
            | error e2 =>
              exfalso
              exact bitboard_set_ok_of_get_empty board spec_index mk hempty e2
                (by simp [hbs])
            | ok w =>
              simp only [hbs] at hok ⊢
              simp only [GR.Board.unset, dif_pos hspec9]
              have hb2 : board2.unset [spec_index] = board := by
                have h5 : (board.set spec_index mk).2 = Except.ok w := by
                  simp [hbs]
                have := gr_bb_set_unset hbwf.1 hbwf.2 hspec9 h5
                rw [hbs] at this
                exact this
              rw [hb2]
              congr 1
              funext j
              by_cases hj : j = ⟨spec_index, hspec9⟩
              · simp [hj, hsub2]
              · simp [hj]
          · simp only [if_neg hmk] at hok ⊢
            simp only [GR.Board.unset, dif_pos hspec9]
            rw [gr_bb_unset_noop hbwf.1 hbwf.2 hspec9 hempty]
            congr 1
            funext j
            by_cases hj : j = ⟨spec_index, hspec9⟩
            · simp [hj, hsub2]
            · simp [hj]

/-- Helper: a game.rs leaf write keeps nine-bit masks nine-bit. -/
theorem gr_bb_set_wf (bb : GR.BitBoard) (i : Nat) (p : GR.PlayerMarker)
    (hx : bb.x < 512) (ho : bb.o < 512) (hi : i < 9) :
    ((bb.set i p).1).x < 512 ∧ ((bb.set i p).1).o < 512 := by
  have hm : (1 <<< i) < 512 := shift9_lt i hi
  by_cases hg : (bb.x ||| bb.o) &&& (1 <<< i) > 0
  · simp only [GR.BitBoard.set, if_pos hg]
    exact ⟨hx, ho⟩
  · cases p with
    | X =>
      simp only [GR.BitBoard.set, if_neg hg]
      exact ⟨Nat.or_lt_two_pow (n := 9) hx hm, ho⟩
    | O =>
      simp only [GR.BitBoard.set, if_neg hg]
      exact ⟨hx, Nat.or_lt_two_pow (n := 9) ho hm⟩
    | Empty =>
      simp only [GR.BitBoard.set, if_neg hg]
      exact ⟨hx, ho⟩

/-- Helper: Board::unset keeps a well-formed game.rs board well formed
(clearing bits can only shrink the masks). -/
theorem gr_board_unset_wf (b : GR.Board) :
    ∀ idx : List Nat, b.wfm → (b.unset idx).wfm := by
  induction b with
  | bitB bb =>
    intro idx hwf
    match idx with
    | [] => exact hwf
    | [i] =>
      refine ⟨?_, ?_⟩
      · exact lt_of_le_of_lt Nat.and_le_left hwf.1
      · exact lt_of_le_of_lt Nat.and_le_left hwf.2
    | _ :: _ :: _ => exact hwf
  | metaB board subs ih =>
    intro idx hwf
    match idx with
    | [] => exact hwf
    | [_] => exact hwf
    | spec_index :: i :: rest =>
      obtain ⟨hb, hs⟩ := hwf
      by_cases h : spec_index < 9
      · simp only [GR.Board.unset, dif_pos h]
        refine ⟨⟨?_, ?_⟩, ?_⟩
        · exact lt_of_le_of_lt Nat.and_le_left hb.1
        · exact lt_of_le_of_lt Nat.and_le_left hb.2
        · intro j
          by_cases hj : j = ⟨spec_index, h⟩
          · simp only [hj, if_pos]
            exact ih _ _ (hs _)
          · simp only [if_neg hj]
            exact hs j
      · simp only [GR.Board.unset, dif_neg h]
        exact ⟨hb, hs⟩

/-- Helper: Board::set keeps a well-formed game.rs board well formed when
the move components are in range. -/
theorem gr_board_set_wf (b : GR.Board) :
    ∀ (idx : List Nat) (p : GR.PlayerMarker), b.wfm → (∀ d ∈ idx, d < 9) →
      ((b.set idx p).1).wfm := by
  induction b with
  | bitB bb =>
    intro idx p hwf hidx
    match idx with
    | [] => exact hwf
    | [i] => exact gr_bb_set_wf bb i p hwf.1 hwf.2 (hidx i (by simp))
    | _ :: _ :: _ => exact hwf
  | metaB board subs ih =>
    intro idx p hwf hidx
    match idx with
    | [] => exact hwf
    | [_] => exact hwf
    | spec_index :: i :: rest =>
      obtain ⟨hb, hs⟩ := hwf
      have hspec9 : spec_index < 9 := hidx spec_index (by simp)
      have hrest9 : ∀ d ∈ i :: rest, d < 9 := by
        intro d hd
        exact hidx d (List.mem_cons_of_mem _ hd)
      by_cases hwon : board.get spec_index ≠ .Empty
      · simp only [GR.Board.set, if_pos hwon]
        exact ⟨hb, hs⟩
      · simp only [GR.Board.set, if_neg hwon, dif_pos hspec9]
        rcases hrec : GR.Board.set (subs ⟨spec_index, hspec9⟩) (i :: rest) p
          with ⟨sub2, r⟩
        have hsub2 : sub2.wfm := by
          have := ih ⟨spec_index, hspec9⟩ (i :: rest) p (hs _) hrest9
          rw [hrec] at this
          exact this
        have hupd : ∀ j : Fin 9, ((fun j =>
            if j = ⟨spec_index, hspec9⟩ then sub2 else subs j) j).wfm := by
          intro j
          by_cases hj : j = ⟨spec_index, hspec9⟩
          · simp only [hj, if_pos]
            exact hsub2
          · simp only [if_neg hj]
            exact hs j
        cases r with
        | ok mk =>
          by_cases hmk : mk ≠ GR.PlayerMarker.Empty
          · simp only [if_pos hmk]
            rcases hbs : board.set spec_index mk with ⟨board2, r2⟩
            have hb2 : board2.x < 512 ∧ board2.o < 512 := by
              have := gr_bb_set_wf board spec_index mk hb.1 hb.2 hspec9
              rw [hbs] at this
              exact this
            cases r2 with
            | ok w => exact ⟨hb2, hupd⟩
            | error e2 => exact ⟨hb2, hupd⟩
          · simp only [if_neg hmk]
            exact ⟨hb, hupd⟩
        | error e => exact ⟨hb, hupd⟩

/-- Helper: every reachable game.rs game state has a well-formed board. -/
theorem gsreach_wf {s : GR.GameState} (h : GR.GSReach s) : s.board.wfm := by
  induction h with
  | base => exact ⟨by norm_num [GR.BitBoard.new], by norm_num [GR.BitBoard.new]⟩
  | @step_set s m hr hidx ih =>
    rcases hbs : s.board.set m s.current_player with ⟨b2, r⟩
    have hb2 : b2.wfm := by
      have := gr_board_set_wf s.board m s.current_player ih hidx
      rw [hbs] at this
      exact this
    cases r with
    | ok mk => simpa [GR.GameState.set, hbs] using hb2
    | error e => simpa [GR.GameState.set, hbs] using hb2
  | @step_unset s prev hr ih =>
    unfold GR.GameState.unset
    rcases hlm : s.last_move with _ | lm
    · exact ih
    · exact gr_board_unset_wf s.board lm ih

/-- Helper, game.rs half of C2: on every reachable game state, a successful
GameState::set followed by GameState::unset with the prior last move
restores the state bit-identically. -/
theorem gr_gamestate_roundtrip (s : GR.GameState) (hr : GR.GSReach s)
    (m : List Nat) (hidx : ∀ d ∈ m, d < 9) (marker : GR.PlayerMarker)
    (hok : (s.set m).2 = .ok marker) :
    ((s.set m).1).unset s.last_move = s := by
  have hwf := gsreach_wf hr
  rcases hbs : s.board.set m s.current_player with ⟨b2, r⟩
  cases r with
  | error e => simp [GR.GameState.set, hbs] at hok
  | ok mk =>
    have hb2 : b2.unset m = s.board := by
      have := gr_board_set_unset s.board m s.current_player mk hwf hidx
      rw [hbs] at this
      exact this rfl
    simp only [GR.GameState.set, hbs, GR.GameState.unset]
    rw [hb2, to_other_involutive]

/-- C2: for every reachable game state and every legal move, applying the
move with set and then undoing it with unset — passing the prior last move
as the previous-move argument — restores the state bit-identically: every
bitboard mask, the current player and the recorded last move equal their
values before the apply.  Proved for both cited implementations: the
version1.rs MetaBoard (legality as membership in get_possible_moves) and
the game.rs GameState over the recursive Board (legality as a successful
apply of a move with in-range components). -/
theorem set_unset_roundtrip :
    (∀ mb : V1.MetaBoard, V1.Reachable mb → ∀ m ∈ mb.get_possible_moves,
      (mb.set m).unset mb.last_move = mb) ∧
    (∀ s : GR.GameState, GR.GSReach s → ∀ m : List Nat, (∀ d ∈ m, d < 9) →
      ∀ marker, (s.set m).2 = .ok marker →
      ((s.set m).1).unset s.last_move = s) := by
  constructor
  · intro mb hr m hm
    exact v1_set_unset_roundtrip mb hr m hm
  · intro s hr m hidx marker hok
    exact gr_gamestate_roundtrip s hr m hidx marker hok

/-- Witness for C2: the first legal move on the fresh version1.rs board and
a first cell write on the fresh game.rs state, each applied and undone. -/
theorem set_unset_roundtrip_witness :
    (V1.MetaBoard.new.set (V1.MetaMove.fromPair 0 0)).unset
      V1.MetaBoard.new.last_move = V1.MetaBoard.new ∧
    ((GR.GameState.new.set [4]).1).unset GR.GameState.new.last_move =
      GR.GameState.new :=
  ⟨set_unset_roundtrip.1 V1.MetaBoard.new V1.Reachable.base
      (V1.MetaMove.fromPair 0 0) (by decide),
   set_unset_roundtrip.2 GR.GameState.new GR.GSReach.base [4] (by decide)
      GR.PlayerMarker.Empty rfl⟩
